import Mathlib

/-!
# Music playlist manager: embedding of `PROJECT_CODE2.cpp`

The C++ class `Playlist` owns a doubly linked list of heap nodes and keeps raw
`Node*` pointers into it (`head`, `tail`, `current`, and the vector
`shuffledOrder`).  The embedding keeps pointer identity explicit:

* a `Node` is a heap cell together with its address (`addr` is the value of the
  `Node*` that points at the cell);
* the chain reached from `head` through the `next` links is the list `nodes`;
  `head` is its first cell, `tail` its last, and `n->next` / `n->prev` are the
  neighbours of `n` in that list;
* a pointer is an `Option Nat`: `none` is `nullptr`, `some a` is the address `a`;
* an operation returns `Option Playlist`, where `none` stands for undefined
  behaviour of the C++ code (reading `front()` or `[i]` of a vector outside its
  bounds, or dereferencing a pointer that designates no live node).

The two standard-library algorithms whose result the C++ standard does not fix
(`std::sort`: order of equivalent elements; `std::shuffle`: the permutation drawn)
are modelled by passing their result in, together with a predicate saying which
results the standard allows.
-/

namespace PlaylistManager

/-! ## Data model -/

/-- The record `struct Song`. -/
structure Song where
  title : String
  artist : String
  album : String
  duration : Int
  favorite : Bool
  filePath : String
deriving DecidableEq

/-- A heap cell of `struct Node` with the address it lives at.  The `next` and
`prev` fields are represented by the position of the cell in `Playlist.nodes`. -/
structure Node where
  addr : Nat
  data : Song
deriving DecidableEq

/-- The private `enum class PlaybackState`. -/
inductive PlaybackState where
  | Stopped
  | Playing
  | Paused
deriving DecidableEq

/-- The data members of `class Playlist`.  `repeatFlag` is the member `repeat`
(a reserved word in Lean). -/
structure Playlist where
  nodes : List Node
  current : Option Nat
  state : PlaybackState
  history : List Song
  shuffledOrder : List Nat
  shuffleIndex : Nat
  isShuffled : Bool
  repeatFlag : Bool
  name : String
deriving DecidableEq

/-- The member `size_t maxHistorySize = 10`. -/
def maxHistorySize : Nat := 10

/-- The constructor `Playlist(n)`: no nodes, null cursor, `Stopped`, both flags off. -/
def Playlist.init (n : String) : Playlist :=
  { nodes := [], current := none, state := PlaybackState.Stopped, history := [],
    shuffledOrder := [], shuffleIndex := 0, isShuffled := false, repeatFlag := false,
    name := n }

/-! ## Pointer reads on the chain -/

/-- The member `head`: address of the first cell, `nullptr` for the empty chain. -/
def head (p : Playlist) : Option Nat := p.nodes.head?.map Node.addr

/-- The member `tail`: address of the last cell, `nullptr` for the empty chain. -/
def tail (p : Playlist) : Option Nat := p.nodes.getLast?.map Node.addr

/-- The addresses of the chain in order: what `getNodeVector` collects. -/
def getNodeVector (p : Playlist) : List Nat := p.nodes.map Node.addr

/-- The cell a pointer designates: `none` when no live node has that address. -/
def deref : List Node → Nat → Option Node
  | [], _ => none
  | n :: rest, a => if n.addr = a then some n else deref rest a

/-- The field `n->next` of the node at address `a`. -/
def nextOf : List Node → Nat → Option Nat
  | [], _ => none
  | n :: rest, a => if n.addr = a then rest.head?.map Node.addr else nextOf rest a

/-- The field `n->prev` of the node at address `a`. -/
def prevOf : List Node → Nat → Option Nat
  | [], _ => none
  | [_], _ => none
  | m :: n :: rest, a =>
    if m.addr = a then none
    else if n.addr = a then some m.addr
    else prevOf (n :: rest) a

/-- The scan `while (temp && temp->data.title != title) temp = temp->next;`
shared by `removeSong`, `modifySong` and `toggleFavorite`. -/
def findByTitle : List Node → String → Option Node
  | [], _ => none
  | n :: rest, t => if n.data.title ≠ t then findByTitle rest t else some n

/-- Splicing the node at address `a` out of the chain
(`temp->prev->next = temp->next`, `temp->next->prev = temp->prev`, with `head`
and `tail` moved when the node was first or last). -/
def unlink : List Node → Nat → List Node
  | [], _ => []
  | n :: rest, a => if n.addr = a then rest else n :: unlink rest a

/-- An address no live node occupies: the result of `new Node(song)`. -/
def freshAddr (nodes : List Node) : Nat := (nodes.map Node.addr).foldr max 0 + 1

/-! ## Private helpers of the class -/

/-- The helper `addToHistory`: drop the oldest entry when the deque is full,
then append. -/
def addToHistory (history : List Song) (song : Song) : List Song :=
  (if history.length ≥ maxHistorySize then history.tail else history) ++ [song]

/-- The helper `relinkNodes(nodes)`: the chain becomes `nodes` in vector order,
`head = nodes.front()`, `tail = nodes.back()`, `current = head`.  On an empty
vector `front()` is undefined. -/
def relinkNodes (p : Playlist) (nodes : List Node) : Option Playlist :=
  match nodes with
  | [] => none
  | n :: rest => some { p with nodes := n :: rest, current := some n.addr }

/-! ## Public operations -/

/-- The method `addSong`. -/
def addSong (p : Playlist) (song : Song) : Playlist :=
  let newNode : Node := { addr := freshAddr p.nodes, data := song }
  let linked : List Node := p.nodes ++ [newNode]
  { p with
    nodes := linked
    current := match p.current with
      | none => linked.head?.map Node.addr
      | some c => some c }

/-- The method `removeSong`. -/
def removeSong (p : Playlist) (title : String) : Playlist :=
  match findByTitle p.nodes title with
  | none => p
  | some temp =>
    { p with
      nodes := unlink p.nodes temp.addr
      shuffledOrder := p.shuffledOrder.erase temp.addr
      current :=
        if p.current = some temp.addr then
          match nextOf p.nodes temp.addr with
          | some n => some n
          | none => prevOf p.nodes temp.addr
        else p.current }

/-- The assignment `temp->data = newSong` at the first node with the title. -/
def modifyFirst : List Node → String → Song → List Node
  | [], _, _ => []
  | n :: rest, t, s =>
    if n.data.title ≠ t then n :: modifyFirst rest t s else { n with data := s } :: rest

/-- The method `modifySong`. -/
def modifySong (p : Playlist) (title : String) (newSong : Song) : Playlist :=
  { p with nodes := modifyFirst p.nodes title newSong }

/-- The loop of `toggleFavorite`: negate the flag at the first match and stop. -/
def flipFirst : List Node → String → List Node
  | [], _ => []
  | n :: rest, t =>
    if n.data.title = t then
      { n with data := { n.data with favorite := !n.data.favorite } } :: rest
    else n :: flipFirst rest t

/-- The method `toggleFavorite`. -/
def toggleFavorite (p : Playlist) (title : String) : Playlist :=
  { p with nodes := flipFirst p.nodes title }

/-- The comparator of `sortByTitle`: `a->data.title < b->data.title`. -/
def titleLess (a b : Node) : Prop := a.data.title < b.data.title

instance (a b : Node) : Decidable (titleLess a b) := by
  unfold titleLess; infer_instance

/-- What the C++ standard guarantees of `std::sort(first, last, comp)`: the
range afterwards is a rearrangement of the range before, and no element
compares less than an earlier one. -/
def StdSortPost (input output : List Node) : Prop :=
  output.Perm input ∧ output.Pairwise (fun a b => ¬ titleLess b a)

/-- The method `sortByTitle`; `sorted` is the vector as `std::sort` left it. -/
def sortByTitle (p : Playlist) (sorted : List Node) : Option Playlist :=
  relinkNodes p sorted

/-- The method `toggleRepeat`. -/
def toggleRepeat (p : Playlist) (enabled : Bool) : Playlist :=
  { p with repeatFlag := enabled }

/-- The method `play`.  The console output and the `system` call do not touch
the members. -/
def play (p : Playlist) : Option Playlist :=
  match p.current with
  | none => some p
  | some c =>
    match deref p.nodes c with
    | none => none
    | some n =>
      some { p with state := PlaybackState.Playing, history := addToHistory p.history n.data }

/-- The method `next`. -/
def next (p : Playlist) : Option Playlist :=
  match p.current with
  | none => some p
  | some c =>
    if p.isShuffled = true ∧ p.shuffleIndex + 1 < p.shuffledOrder.length then
      match p.shuffledOrder[p.shuffleIndex + 1]? with
      | none => none
      | some a => play { p with shuffleIndex := p.shuffleIndex + 1, current := some a }
    else if p.isShuffled = false ∧ (nextOf p.nodes c).isSome then
      play { p with current := nextOf p.nodes c }
    else if p.repeatFlag = true then
      play { p with current := head p }
    else play p

/-- The method `prev`. -/
def prev (p : Playlist) : Option Playlist :=
  match p.current with
  | none => some p
  | some c =>
    if p.isShuffled = true ∧ p.shuffleIndex > 0 then
      match p.shuffledOrder[p.shuffleIndex - 1]? with
      | none => none
      | some a => play { p with shuffleIndex := p.shuffleIndex - 1, current := some a }
    else if p.isShuffled = false ∧ (prevOf p.nodes c).isSome then
      play { p with current := prevOf p.nodes c }
    else if p.repeatFlag = true then
      play { p with current := tail p }
    else play p

/-- What the C++ standard guarantees of `std::shuffle`: the range afterwards is
a rearrangement of the range before. -/
def StdShufflePost (input output : List Nat) : Prop := output.Perm input

/-- The method `toggleShuffle`; `shuffled` is the node vector as `std::shuffle`
left it (not consulted when `enable` is false). -/
def toggleShuffle (p : Playlist) (enable : Bool) (shuffled : List Nat) : Option Playlist :=
  if enable = true then
    match shuffled[0]? with
    | none => none
    | some a =>
      some { p with isShuffled := true, shuffledOrder := shuffled, shuffleIndex := 0,
                    current := some a }
  else some { p with isShuffled := false, current := head p }

/-- The least value of the C++ type `int` (32 bits). -/
def intMin : Int := -2147483648

/-- The greatest value of the C++ type `int` (32 bits). -/
def intMax : Int := 2147483647

/-- The statement `total += d` on `int`: when the mathematical sum leaves the
range of `int` the signed addition overflows, which is undefined. -/
def addInt (total d : Int) : Option Int :=
  if intMin ≤ total + d ∧ total + d ≤ intMax then some (total + d) else none

/-- The loop of `getTotalDuration` from the node `temp` on, with the running
`total`. -/
def sumDurations : Int → List Node → Option Int
  | total, [] => some total
  | total, n :: rest =>
    match addInt total n.data.duration with
    | none => none
    | some t => sumDurations t rest

/-- The method `getTotalDuration`. -/
def getTotalDuration (p : Playlist) : Option Int := sumDurations 0 p.nodes

/-! ## Sequences of public operations -/

/-- One call of a public method, with the outcome of the library algorithm it
runs where there is one. -/
inductive Op where
  | addSong (song : Song)
  | removeSong (title : String)
  | modifySong (title : String) (newSong : Song)
  | sortByTitle (sorted : List Node)
  | toggleFavorite (title : String)
  | toggleRepeat (enabled : Bool)
  | toggleShuffle (enable : Bool) (shuffled : List Nat)
  | play
  | next
  | prev

/-- The library outcome carried by a call is one the standard allows in state `p`. -/
def Op.admissible (p : Playlist) : Op → Prop
  | Op.sortByTitle sorted => StdSortPost p.nodes sorted
  | Op.toggleShuffle true shuffled => StdShufflePost (getNodeVector p) shuffled
  | _ => True

/-- Executing one call. -/
def step (p : Playlist) : Op → Option Playlist
  | Op.addSong song => some (addSong p song)
  | Op.removeSong title => some (removeSong p title)
  | Op.modifySong title newSong => some (modifySong p title newSong)
  | Op.sortByTitle sorted => sortByTitle p sorted
  | Op.toggleFavorite title => some (toggleFavorite p title)
  | Op.toggleRepeat enabled => some (toggleRepeat p enabled)
  | Op.toggleShuffle enable shuffled => toggleShuffle p enable shuffled
  | Op.play => play p
  | Op.next => next p
  | Op.prev => prev p

/-- The states a program can be in after constructing a playlist and calling
public methods on it, every call having defined behaviour. -/
inductive Reachable : Playlist → Prop where
  | init (n : String) : Reachable (Playlist.init n)
  | step {p q : Playlist} (op : Op) :
      Reachable p → op.admissible p → step p op = some q → Reachable q

/-- Executing a sequence of calls, stopping at the first undefined one. -/
def run (p : Playlist) : List Op → Option Playlist
  | [] => some p
  | op :: ops =>
    match step p op with
    | none => none
    | some q => run q ops

/-- The entry `play()` has just recorded in state `q`: the data of the node
under the cursor, nothing when the cursor is null. -/
def playedEntry (q : Playlist) : List Song :=
  match q.current with
  | none => []
  | some c =>
    match deref q.nodes c with
    | none => []
    | some n => [n.data]

/-- The plays a call performs, given the state `q` it ends in: `play`, `next`
and `prev` play the entry under the resulting cursor, the other methods play
nothing. -/
def playedBy (op : Op) (q : Playlist) : List Song :=
  match op with
  | Op.play => playedEntry q
  | Op.next => playedEntry q
  | Op.prev => playedEntry q
  | _ => []

/-- Reachable states together with the log of every play performed since
construction, oldest first. -/
inductive Trace : Playlist → List Song → Prop where
  | init (n : String) : Trace (Playlist.init n) []
  | step {p q : Playlist} {log : List Song} (op : Op) :
      Trace p log → op.admissible p → step p op = some q →
      Trace q (log ++ playedBy op q)

/-- Executing a sequence of calls while extending the log of plays. -/
def runLog (p : Playlist) (log : List Song) : List Op → Option (Playlist × List Song)
  | [] => some (p, log)
  | op :: ops =>
    match step p op with
    | none => none
    | some q => runLog q (log ++ playedBy op q) ops

/-- Calls that run no library algorithm with an unspecified result. -/
def Op.plain : Op → Bool
  | Op.sortByTitle _ => false
  | Op.toggleShuffle true _ => false
  | _ => true

/-! ## Sample playlists -/

/-- A three-entry playlist (addresses 1, 2, 3) whose cursor stands on the middle
entry; used to instantiate the general statements. -/
def songA : Song :=
  { title := "A", artist := "x", album := "u", duration := 180, favorite := false, filePath := "" }

/-- See `songA`. -/
def songB : Song :=
  { title := "B", artist := "y", album := "v", duration := 200, favorite := false, filePath := "" }

/-- See `songA`. -/
def songC : Song :=
  { title := "C", artist := "z", album := "w", duration := 90, favorite := false, filePath := "" }

/-- See `songA`. -/
def demo3 : Playlist :=
  { Playlist.init "My Playlist" with
    nodes := [⟨1, songA⟩, ⟨2, songB⟩, ⟨3, songC⟩], current := some 2 }

/-- The playlist of the example scenario: freshly constructed, then `A` (180 s)
and `B` (200 s) added; the cursor stands on `A`. -/
def demoAB : Playlist := addSong (addSong (Playlist.init "My Playlist") songA) songB

/-- The calls of the history example: three entries added, repeat enabled, then
fifteen times `next()`. -/
def loopCalls : List Op :=
  [Op.addSong songA, Op.addSong songB, Op.addSong songC, Op.toggleRepeat true] ++
    List.replicate 15 Op.next

/-- The state and the log of plays after `loopCalls` on a fresh playlist. -/
def looped : Playlist × List Song :=
  (runLog (Playlist.init "My Playlist") [] loopCalls).getD (Playlist.init "My Playlist", [])

/-- The two-entry playlist `demoAB` with repeat enabled, shuffle enabled with the
permutation drawn as `B, A`, and the shuffle cursor on the last position (so
the cursor designates `A`): the state after `toggleRepeat(true)`,
`toggleShuffle(true)` and one `next()`. -/
def shuffledEnd : Playlist :=
  { demoAB with
    current := some 1, state := PlaybackState.Playing, history := [songA],
    shuffledOrder := [2, 1], shuffleIndex := 1, isShuffled := true, repeatFlag := true }

/-- An unsorted three-entry playlist: `B`, `A`, `C` at addresses 1, 2, 3 with
the cursor on `C`. -/
def demoBAC : Playlist :=
  { Playlist.init "My Playlist" with
    nodes := [⟨1, songB⟩, ⟨2, songA⟩, ⟨3, songC⟩], current := some 3 }

/-- The entry `k` of the duplicate-title playlist: every entry has the title
`Song`, the artists differ. -/
def dupSong (artist : String) : Song :=
  { title := "Song", artist := artist, album := "Album", duration := 60, favorite := false,
    filePath := "" }

/-- Seventeen entries with one title, added in this order at addresses 1 to 17. -/
def dupNodes : List Node :=
  (List.zip (List.range' 1 17)
    ["artist01", "artist02", "artist03", "artist04", "artist05", "artist06", "artist07", "artist08", "artist09", "artist10", "artist11", "artist12", "artist13", "artist14", "artist15", "artist16", "artist17"]).map
    (fun e => ⟨e.1, dupSong e.2⟩)

/-- The playlist holding `dupNodes`. -/
def dup17 : Playlist :=
  { Playlist.init "My Playlist" with nodes := dupNodes, current := some 1 }

/-- The node of `dupNodes` at address `k`. -/
def dupNode (k : Nat) : Node := (deref dupNodes k).getD ⟨0, dupSong ""⟩

/-- The order in which `std::sort` of GNU libstdc++ 12 leaves seventeen elements
that all compare equivalent (median-of-three introsort partition): by address,
9 17 16 15 14 13 12 11 10 1 8 7 6 5 4 3 2. -/
def dupSorted : List Node :=
  [9, 17, 16, 15, 14, 13, 12, 11, 10, 1, 8, 7, 6, 5, 4, 3, 2].map dupNode

/-- The claim of stability: of two entries with equal titles, the one that came
first in `input` still comes first in `output`. -/
def StableOrder (input output : List Node) : Prop :=
  ∀ a b : Node, a.data.title = b.data.title → [a, b].Sublist input → [a, b].Sublist output

/-- An entry whose duration is the greatest `int`. -/
def songMax : Song :=
  { title := "M", artist := "m", album := "m", duration := 2147483647, favorite := false,
    filePath := "" }

/-- Three entries added, shuffle enabled with the permutation drawn as
`A, B, C`, two `next()` calls (shuffle cursor 2, on `C`), then `A` and `B`
removed. -/
def staleCalls : List Op :=
  [Op.addSong songA, Op.addSong songB, Op.addSong songC, Op.toggleShuffle true [1, 2, 3],
   Op.next, Op.next, Op.removeSong "A", Op.removeSong "B"]

/-- The state after `staleCalls` on a fresh playlist: the chain and the shuffle
vector hold only `C`, while the shuffle cursor is still 2. -/
def staleCursor : Playlist :=
  { Playlist.init "My Playlist" with
    nodes := [⟨3, songC⟩], current := some 3, state := PlaybackState.Playing,
    history := [songB, songC], shuffledOrder := [3], shuffleIndex := 2, isShuffled := true }

/-- A fourth sample entry. -/
def songD : Song :=
  { title := "D", artist := "t", album := "s", duration := 240, favorite := false, filePath := "" }

/-- Four entries added, shuffle enabled with the permutation drawn as
`A, B, C, D`, three `next()` calls (shuffle cursor 3, on `D`), then `D` and `C`
removed. -/
def danglingCalls : List Op :=
  [Op.addSong songA, Op.addSong songB, Op.addSong songC, Op.addSong songD,
   Op.toggleShuffle true [1, 2, 3, 4], Op.next, Op.next, Op.next,
   Op.removeSong "D", Op.removeSong "C"]

/-- The state after `danglingCalls` on a fresh playlist: the chain and the
shuffle vector hold `A, B`, the cursor is on `B`, and the shuffle cursor is
still 3. -/
def danglingCursor : Playlist :=
  { Playlist.init "My Playlist" with
    nodes := [⟨1, songA⟩, ⟨2, songB⟩], current := some 2, state := PlaybackState.Playing,
    history := [songB, songC, songD], shuffledOrder := [1, 2], shuffleIndex := 3,
    isShuffled := true }

/-- Three entries `A, B, C` added, repeat enabled, shuffle enabled with the
permutation drawn as `B, A, C`, and two `next()` calls: the shuffle cursor is on
the last position 2 and `current` is `C`. -/
def shuffleWrapEnd : Playlist :=
  { Playlist.init "My Playlist" with
    nodes := [⟨1, songA⟩, ⟨2, songB⟩, ⟨3, songC⟩], current := some 3,
    state := PlaybackState.Playing, history := [songA, songC], shuffledOrder := [2, 1, 3],
    shuffleIndex := 2, isShuffled := true, repeatFlag := true }

/-! ## Representation invariant -/

/-- The representation invariant of the class: node addresses are pairwise
distinct, the cursor is null exactly on the empty chain and otherwise
designates a live node, and the shuffle vector lists live nodes without
repetition. -/
structure Inv (p : Playlist) : Prop where
  nodup : (getNodeVector p).Nodup
  null_iff : p.current = none ↔ p.nodes = []
  live : ∀ c, p.current = some c → c ∈ getNodeVector p
  shuf_nodup : p.shuffledOrder.Nodup
  shuf_live : ∀ a ∈ p.shuffledOrder, a ∈ getNodeVector p

/-- The situation between `toggleShuffle(true)` on the playlist `p0` with drawn
permutation `shuffled` and the next call other than `next()`/`prev()`: the
chain is that of `p0`, shuffle mode is on with that permutation, the shuffle
cursor is a valid index, and the cursor and the permutation designate nodes of
the chain. -/
structure ShuffleNav (p0 : Playlist) (shuffled : List Nat) (r : Playlist) : Prop where
  nodes_eq : r.nodes = p0.nodes
  order_eq : r.shuffledOrder = shuffled
  shuffle_on : r.isShuffled = true
  index_lt : r.shuffleIndex < shuffled.length
  cursor_live : ∃ c, r.current = some c ∧ c ∈ getNodeVector p0
  order_live : ∀ a ∈ shuffled, a ∈ getNodeVector p0

/-! ## Facts about the pointer reads -/

theorem findByTitle_append (pre post : List Node) (n : Node) (t : String)
    (hpre : ∀ m ∈ pre, m.data.title ≠ t) (hn : n.data.title = t) :
    findByTitle (pre ++ n :: post) t = some n := by
  induction pre with
  | nil => simp [findByTitle, hn]
  | cons m pre ih =>
    have hm : m.data.title ≠ t := hpre m (List.mem_cons_self _ _)
    have hrest : ∀ k ∈ pre, k.data.title ≠ t := fun k hk => hpre k (List.mem_cons_of_mem _ hk)
    simp [findByTitle, hm, ih hrest]

theorem nextOf_append (pre post : List Node) (n : Node)
    (hfresh : ∀ m ∈ pre, m.addr ≠ n.addr) :
    nextOf (pre ++ n :: post) n.addr = post.head?.map Node.addr := by
  induction pre with
  | nil => simp [nextOf]
  | cons m pre ih =>
    have hm : m.addr ≠ n.addr := hfresh m (List.mem_cons_self _ _)
    have hrest : ∀ k ∈ pre, k.addr ≠ n.addr := fun k hk => hfresh k (List.mem_cons_of_mem _ hk)
    simp [nextOf, hm, ih hrest]

theorem prevOf_append (pre post : List Node) (n : Node)
    (hfresh : ∀ m ∈ pre, m.addr ≠ n.addr) :
    prevOf (pre ++ n :: post) n.addr = pre.getLast?.map Node.addr := by
  induction pre with
  | nil => cases post <;> simp [prevOf]
  | cons m pre ih =>
    have hm : m.addr ≠ n.addr := hfresh m (List.mem_cons_self _ _)
    have hrest : ∀ k ∈ pre, k.addr ≠ n.addr := fun k hk => hfresh k (List.mem_cons_of_mem _ hk)
    cases pre with
    | nil => simp [prevOf, hm]
    | cons k pre =>
      have hk : k.addr ≠ n.addr := hrest k (List.mem_cons_self _ _)
      have := ih hrest
      simp only [List.cons_append] at this ⊢
      simp [prevOf, hm, hk, this, List.getLast?_cons_cons]

theorem deref_append (pre post : List Node) (n : Node)
    (hfresh : ∀ m ∈ pre, m.addr ≠ n.addr) :
    deref (pre ++ n :: post) n.addr = some n := by
  induction pre with
  | nil => simp [deref]
  | cons m pre ih =>
    have hm : m.addr ≠ n.addr := hfresh m (List.mem_cons_self _ _)
    have hrest : ∀ k ∈ pre, k.addr ≠ n.addr := fun k hk => hfresh k (List.mem_cons_of_mem _ hk)
    simp [deref, hm, ih hrest]

theorem unlink_append (pre post : List Node) (n : Node)
    (hfresh : ∀ m ∈ pre, m.addr ≠ n.addr) :
    unlink (pre ++ n :: post) n.addr = pre ++ post := by
  induction pre with
  | nil => simp [unlink]
  | cons m pre ih =>
    have hm : m.addr ≠ n.addr := hfresh m (List.mem_cons_self _ _)
    have hrest : ∀ k ∈ pre, k.addr ≠ n.addr := fun k hk => hfresh k (List.mem_cons_of_mem _ hk)
    simp [unlink, hm, ih hrest]

/-- In a chain with pairwise distinct addresses, the cells before a given cell
have other addresses than it. -/
theorem fresh_of_nodup (pre post : List Node) (n : Node)
    (hnd : ((pre ++ n :: post).map Node.addr).Nodup) :
    ∀ m ∈ pre, m.addr ≠ n.addr := by
  intro m hm heq
  rw [List.map_append, List.map_cons] at hnd
  have hdisj := (List.nodup_append.mp hnd).2.2
  exact hdisj (List.mem_map_of_mem Node.addr hm) (by rw [heq]; exact List.mem_cons_self _ _)

/-! ## C1: the cursor after removing the current entry -/

/-- C1. When the first entry carrying `title` is the current entry, `removeSong`
moves `current` to the entry that followed it in the chain if there is one,
otherwise to the entry that preceded it, otherwise (sole entry) to `nullptr`;
the removed entry may stand at the head, in the middle, at the tail or alone. -/
theorem removeSong_current_recovery (p : Playlist) (title : String)
    (pre post : List Node) (n : Node)
    (hnodes : p.nodes = pre ++ n :: post)
    (hnd : (getNodeVector p).Nodup)
    (hpre : ∀ m ∈ pre, m.data.title ≠ title)
    (hn : n.data.title = title)
    (hcur : p.current = some n.addr) :
    (∀ m rest, post = m :: rest → (removeSong p title).current = some m.addr) ∧
    (post = [] → ∀ m front, pre = front ++ [m] →
      (removeSong p title).current = some m.addr) ∧
    (post = [] → pre = [] → (removeSong p title).current = none) := by
  have hfresh : ∀ m ∈ pre, m.addr ≠ n.addr := by
    apply fresh_of_nodup pre post n
    simpa [getNodeVector, hnodes] using hnd
  have hfind : findByTitle p.nodes title = some n := by
    rw [hnodes]; exact findByTitle_append pre post n title hpre hn
  have hnext : nextOf p.nodes n.addr = post.head?.map Node.addr := by
    rw [hnodes]; exact nextOf_append pre post n hfresh
  have hprev : prevOf p.nodes n.addr = pre.getLast?.map Node.addr := by
    rw [hnodes]; exact prevOf_append pre post n hfresh
  have hres : (removeSong p title).current =
      match post.head?.map Node.addr with
      | some a => some a
      | none => pre.getLast?.map Node.addr := by
    simp only [removeSong, hfind, hcur, if_true, hnext, hprev]
  refine ⟨?_, ?_, ?_⟩
  · intro m rest hpost
    rw [hres, hpost]; rfl
  · intro hpost m front hfront
    rw [hres, hpost, hfront]; simp
  · intro hpost hempty
    rw [hres, hpost, hempty]; rfl

/-- Instance of C1: removing the middle entry of `demo3`, which is current,
moves the cursor to the entry after it. -/
theorem removeSong_current_recovery_witness :
    (removeSong demo3 "B").current = some 3 :=
  (removeSong_current_recovery demo3 "B" [⟨1, songA⟩] [⟨3, songC⟩] ⟨2, songB⟩ rfl
    (by decide) (by decide) rfl rfl).1 ⟨3, songC⟩ [] rfl

/-! ## C2: the cursor designates a member, or is null on the empty chain -/

theorem le_foldr_max (l : List Nat) : ∀ a ∈ l, a ≤ l.foldr max 0 := by
  induction l with
  | nil => intro a ha; cases ha
  | cons b l ih =>
    intro a ha
    rcases List.mem_cons.mp ha with h | h
    · subst h; exact le_max_left _ _
    · exact le_trans (ih a h) (le_max_right _ _)

theorem freshAddr_not_mem (nodes : List Node) : freshAddr nodes ∉ nodes.map Node.addr := by
  intro h
  have := le_foldr_max _ _ h
  unfold freshAddr at this
  omega

theorem findByTitle_mem (l : List Node) (t : String) (n : Node)
    (h : findByTitle l t = some n) : n ∈ l := by
  induction l with
  | nil => simp [findByTitle] at h
  | cons m l ih =>
    by_cases hm : m.data.title = t
    · simp [findByTitle, hm] at h
      subst h; exact List.mem_cons_self _ _
    · simp [findByTitle, hm] at h
      exact List.mem_cons_of_mem _ (ih h)

theorem modifyFirst_addr (l : List Node) (t : String) (s : Song) :
    (modifyFirst l t s).map Node.addr = l.map Node.addr := by
  induction l with
  | nil => rfl
  | cons m l ih =>
    by_cases hm : m.data.title = t <;> simp [modifyFirst, hm, ih]

theorem flipFirst_addr (l : List Node) (t : String) :
    (flipFirst l t).map Node.addr = l.map Node.addr := by
  induction l with
  | nil => rfl
  | cons m l ih =>
    by_cases hm : m.data.title = t <;> simp [flipFirst, hm, ih]

theorem deref_of_mem (l : List Node) (a : Nat) (h : a ∈ l.map Node.addr) :
    ∃ n, deref l a = some n ∧ n ∈ l ∧ n.addr = a := by
  induction l with
  | nil => simp at h
  | cons m l ih =>
    by_cases hm : m.addr = a
    · exact ⟨m, by simp [deref, hm], List.mem_cons_self _ _, hm⟩
    · have : a ∈ l.map Node.addr := by
        rcases List.mem_map.mp h with ⟨k, hk, hka⟩
        rcases List.mem_cons.mp hk with h1 | h1
        · subst h1; exact absurd hka hm
        · exact List.mem_map.mpr ⟨k, h1, hka⟩
      obtain ⟨n, h1, h2, h3⟩ := ih this
      exact ⟨n, by simp [deref, hm, h1], List.mem_cons_of_mem _ h2, h3⟩

theorem nextOf_mem (l : List Node) (a b : Nat) (h : nextOf l a = some b) :
    b ∈ l.map Node.addr := by
  induction l with
  | nil => simp [nextOf] at h
  | cons m l ih =>
    by_cases hm : m.addr = a
    · simp only [nextOf, hm, if_true] at h
      cases l with
      | nil => simp at h
      | cons k l => simp at h; simp [h]
    · simp only [nextOf, hm, if_false] at h
      exact List.mem_cons_of_mem _ (ih h)

theorem prevOf_mem : ∀ (l : List Node) (a b : Nat), prevOf l a = some b →
    b ∈ l.map Node.addr
  | [], _, _, h => by simp [prevOf] at h
  | [_], _, _, h => by simp [prevOf] at h
  | m :: n :: rest, a, b, h => by
    by_cases hm : m.addr = a
    · simp [prevOf, hm] at h
    · by_cases hn : n.addr = a
      · simp [prevOf, hm, hn] at h
        simp [h]
      · simp only [prevOf, hm, hn, if_false] at h
        exact List.mem_cons_of_mem _ (prevOf_mem (n :: rest) a b h)

/-- The method `play` changes only `state` and `history`. -/
theorem play_frame (p q : Playlist) (h : play p = some q) :
    q.nodes = p.nodes ∧ q.current = p.current ∧ q.shuffledOrder = p.shuffledOrder ∧
    q.shuffleIndex = p.shuffleIndex ∧ q.isShuffled = p.isShuffled ∧
    q.repeatFlag = p.repeatFlag := by
  unfold play at h
  cases hc : p.current with
  | none => simp [hc] at h; subst h; simp [hc]
  | some c =>
    simp only [hc] at h
    cases hd : deref p.nodes c with
    | none => simp [hd] at h
    | some n => simp [hd] at h; subst h; simp [hc]

theorem Inv.of_frame {p q : Playlist} (hp : Inv p) (hn : q.nodes = p.nodes)
    (hs : q.shuffledOrder = p.shuffledOrder)
    (hc : ∀ c, q.current = some c → c ∈ getNodeVector p)
    (hz : q.current = none → p.nodes = []) : Inv q where
  nodup := by simpa [getNodeVector, hn] using hp.nodup
  null_iff := by
    constructor
    · intro h; rw [hn]; exact hz h
    · intro h
      rw [hn] at h
      cases hq : q.current with
      | none => rfl
      | some c =>
        have := hc c hq
        simp [getNodeVector, h] at this
  live := by
    intro c h
    simpa [getNodeVector, hn] using hc c h
  shuf_nodup := by rw [hs]; exact hp.shuf_nodup
  shuf_live := by
    intro a ha
    rw [hs] at ha
    simpa [getNodeVector, hn] using hp.shuf_live a ha

theorem Inv.init (n : String) : Inv (Playlist.init n) where
  nodup := by simp [getNodeVector, Playlist.init]
  null_iff := by simp [Playlist.init]
  live := by simp [Playlist.init]
  shuf_nodup := by simp [Playlist.init]
  shuf_live := by simp [Playlist.init]

theorem Inv.addSong {p : Playlist} (hp : Inv p) (song : Song) : Inv (addSong p song) where
  nodup := by
    have hf := freshAddr_not_mem p.nodes
    have := hp.nodup
    simp only [getNodeVector] at this
    simp only [getNodeVector, PlaylistManager.addSong, List.map_append, List.map_cons,
      List.map_nil]
    rw [List.nodup_append]
    refine ⟨this, List.nodup_singleton _, ?_⟩
    intro a ha hb
    rw [List.mem_singleton] at hb
    subst hb; exact hf ha
  null_iff := by
    cases hc : p.current with
    | none =>
      have hnil := hp.null_iff.mp hc
      simp [PlaylistManager.addSong, hc, hnil]
    | some c => simp [PlaylistManager.addSong, hc]
  live := by
    intro c h
    cases hc : p.current with
    | none =>
      have hnil := hp.null_iff.mp hc
      simp [PlaylistManager.addSong, hc, hnil] at h
      simp [getNodeVector, PlaylistManager.addSong, hnil, h]
    | some d =>
      simp [PlaylistManager.addSong, hc] at h
      have := hp.live d hc
      simp only [getNodeVector] at this
      simp only [getNodeVector, PlaylistManager.addSong, List.map_append, List.mem_append]
      left; rw [← h]; exact this
  shuf_nodup := hp.shuf_nodup
  shuf_live := by
    intro a ha
    have := hp.shuf_live a ha
    simp only [getNodeVector] at this
    simp only [getNodeVector, PlaylistManager.addSong, List.map_append, List.mem_append]
    left; exact this

theorem Inv.removeSong {p : Playlist} (hp : Inv p) (title : String) :
    Inv (removeSong p title) := by
  cases hfind : findByTitle p.nodes title with
  | none => simpa [PlaylistManager.removeSong, hfind] using hp
  | some n =>
    obtain ⟨pre, post, hsplit⟩ := List.append_of_mem (findByTitle_mem _ _ _ hfind)
    have hnd : ((pre ++ n :: post).map Node.addr).Nodup := by
      simpa [getNodeVector, hsplit] using hp.nodup
    have hfresh := fresh_of_nodup pre post n hnd
    have hnext := nextOf_append pre post n hfresh
    have hprev := prevOf_append pre post n hfresh
    have hunlink := unlink_append pre post n hfresh
    rw [← hsplit] at hnext hprev hunlink
    have hnodes : (PlaylistManager.removeSong p title).nodes = pre ++ post := by
      simp [PlaylistManager.removeSong, hfind, hunlink]
    have hshuf : (PlaylistManager.removeSong p title).shuffledOrder =
        p.shuffledOrder.erase n.addr := by
      simp [PlaylistManager.removeSong, hfind]
    have hcur : (PlaylistManager.removeSong p title).current =
        if p.current = some n.addr then
          (match post.head?.map Node.addr with
            | some a => some a
            | none => pre.getLast?.map Node.addr)
        else p.current := by
      simp only [PlaylistManager.removeSong, hfind, hnext, hprev]
    have hnd2 : ((pre ++ post).map Node.addr).Nodup := by
      rw [List.map_append, List.map_cons] at hnd
      rw [List.map_append]
      exact (List.nodup_cons.mp (List.nodup_middle.mp hnd)).2
    have hnotin : n.addr ∉ (pre ++ post).map Node.addr := by
      rw [List.map_append, List.map_cons] at hnd
      rw [List.map_append]
      exact (List.nodup_cons.mp (List.nodup_middle.mp hnd)).1
    have hkeep : ∀ a, a ∈ getNodeVector p → a ≠ n.addr → a ∈ (pre ++ post).map Node.addr := by
      intro a ha hne
      simp only [getNodeVector, hsplit, List.map_append, List.map_cons, List.mem_append,
        List.mem_cons] at ha
      simp only [List.map_append, List.mem_append]
      rcases ha with h | h | h
      · exact Or.inl h
      · exact absurd h hne
      · exact Or.inr h
    refine ⟨?_, ?_, ?_, ?_, ?_⟩
    · simpa [getNodeVector, hnodes] using hnd2
    · rw [hnodes, hcur]
      by_cases hc : p.current = some n.addr
      · rw [if_pos hc]
        cases post with
        | cons m rest => simp
        | nil =>
          rcases List.eq_nil_or_concat pre with h | ⟨front, m, h⟩
          · subst h; simp
          · subst h; simp
      · rw [if_neg hc]
        constructor
        · intro h
          have := hp.null_iff.mp h
          rw [hsplit] at this
          simp at this
        · intro h
          exfalso
          cases hcc : p.current with
          | none =>
            have := hp.null_iff.mp hcc
            rw [hsplit] at this
            simp at this
          | some c =>
            have hne : c ≠ n.addr := fun e => hc (by rw [hcc, e])
            have := hkeep c (hp.live c hcc) hne
            rw [h] at this
            simp at this
    · intro c h
      rw [hcur] at h
      simp only [getNodeVector, hnodes]
      by_cases hc : p.current = some n.addr
      · rw [if_pos hc] at h
        cases post with
        | cons m rest =>
          simp at h
          simp [← h]
        | nil =>
          rcases List.eq_nil_or_concat pre with h1 | ⟨front, m, h1⟩
          · subst h1; simp at h
          · subst h1
            simp at h
            simp [← h]
      · rw [if_neg hc] at h
        have hne : c ≠ n.addr := fun e => hc (by rw [h, e])
        exact hkeep c (hp.live c h) hne
    · rw [hshuf]; exact hp.shuf_nodup.erase _
    · intro a ha
      rw [hshuf] at ha
      have hmem := (List.Nodup.mem_erase_iff hp.shuf_nodup).mp ha
      simp only [getNodeVector, hnodes]
      exact hkeep a (hp.shuf_live a hmem.2) hmem.1

theorem Inv.of_same_addrs {p q : Playlist} (hp : Inv p)
    (hn : q.nodes.map Node.addr = p.nodes.map Node.addr)
    (hc : q.current = p.current) (hs : q.shuffledOrder = p.shuffledOrder) : Inv q where
  nodup := by simpa [getNodeVector, hn] using hp.nodup
  null_iff := by
    rw [hc, hp.null_iff]
    constructor
    · intro h; rw [h] at hn; simpa using hn
    · intro h; rw [h] at hn; simpa using hn.symm
  live := by
    intro c h
    rw [hc] at h
    simpa [getNodeVector, hn] using hp.live c h
  shuf_nodup := by rw [hs]; exact hp.shuf_nodup
  shuf_live := by
    intro a ha
    rw [hs] at ha
    simpa [getNodeVector, hn] using hp.shuf_live a ha

theorem Inv.sortByTitle {p q : Playlist} (hp : Inv p) (sorted : List Node)
    (hperm : sorted.Perm p.nodes) (h : sortByTitle p sorted = some q) : Inv q := by
  cases sorted with
  | nil => simp [PlaylistManager.sortByTitle, relinkNodes] at h
  | cons n rest =>
    simp only [PlaylistManager.sortByTitle, relinkNodes, Option.some.injEq] at h
    subst h
    have hpa : ((n :: rest).map Node.addr).Perm (p.nodes.map Node.addr) := hperm.map _
    refine ⟨?_, ?_, ?_, ?_, ?_⟩
    · exact hpa.nodup_iff.mpr hp.nodup
    · simp
    · intro c hc
      simp at hc
      simp [getNodeVector, ← hc]
    · exact hp.shuf_nodup
    · intro a ha
      exact hpa.mem_iff.mpr (hp.shuf_live a ha)

theorem head_mem_of_ne_nil (p : Playlist) (c : Nat) (h : head p = some c) :
    c ∈ getNodeVector p := by
  unfold head at h
  cases hn : p.nodes with
  | nil => simp [hn] at h
  | cons m rest =>
    simp [hn] at h
    simp [getNodeVector, hn, ← h]

theorem tail_mem_of_ne_nil (p : Playlist) (c : Nat) (h : tail p = some c) :
    c ∈ getNodeVector p := by
  unfold tail at h
  rcases List.eq_nil_or_concat p.nodes with hn | ⟨front, m, hn⟩
  · simp [hn] at h
  · simp [hn] at h
    simp [getNodeVector, hn, ← h]

theorem head_eq_none_iff (p : Playlist) : head p = none ↔ p.nodes = [] := by
  unfold head
  cases p.nodes <;> simp

theorem tail_eq_none_iff (p : Playlist) : tail p = none ↔ p.nodes = [] := by
  unfold tail
  rcases List.eq_nil_or_concat p.nodes with hn | ⟨front, m, hn⟩ <;> simp [hn]

theorem Inv.toggleShuffle {p q : Playlist} (hp : Inv p) (enable : Bool) (shuffled : List Nat)
    (hperm : enable = true → shuffled.Perm (getNodeVector p))
    (h : toggleShuffle p enable shuffled = some q) : Inv q := by
  cases enable with
  | true =>
    have hperm := hperm rfl
    cases shuffled with
    | nil => simp [PlaylistManager.toggleShuffle] at h
    | cons a rest =>
      simp [PlaylistManager.toggleShuffle] at h
      subst h
      have hmem : a ∈ getNodeVector p := hperm.mem_iff.mp (List.mem_cons_self _ _)
      refine ⟨hp.nodup, ?_, ?_, hperm.nodup_iff.mpr hp.nodup, ?_⟩
      · constructor
        · intro h; simp at h
        · intro h
          simp only at h
          simp [getNodeVector, h] at hmem
      · intro c hc
        simp at hc
        rw [← hc]; exact hmem
      · intro b hb
        exact hperm.mem_iff.mp hb
  | false =>
    simp [PlaylistManager.toggleShuffle] at h
    subst h
    exact hp.of_frame rfl rfl (fun c hc => head_mem_of_ne_nil p c hc)
      (fun hc => (head_eq_none_iff p).mp hc)

theorem Inv.play {p q : Playlist} (hp : Inv p) (h : play p = some q) : Inv q := by
  obtain ⟨h1, h2, h3, -⟩ := play_frame p q h
  exact hp.of_same_addrs (by rw [h1]) h2 h3

theorem getElem?_mem_of_some (l : List Nat) (i a : Nat) (h : l[i]? = some a) : a ∈ l := by
  obtain ⟨hi, he⟩ := List.getElem?_eq_some.mp h
  rw [← he]; exact List.getElem_mem _

theorem Inv.next {p q : Playlist} (hp : Inv p) (h : next p = some q) : Inv q := by
  unfold PlaylistManager.next at h
  cases hc : p.current with
  | none => simp [hc] at h; subst h; exact hp
  | some c =>
    have hne : p.nodes ≠ [] := fun e => by
      have := hp.null_iff.mpr e
      rw [hc] at this; cases this
    simp only [hc] at h
    split_ifs at h with h1 h2 h3
    · cases hg : p.shuffledOrder[p.shuffleIndex + 1]? with
      | none => simp [hg] at h
      | some a =>
        simp only [hg] at h
        refine Inv.play ?_ h
        refine hp.of_frame rfl rfl ?_ ?_
        · intro d hd
          simp at hd
          rw [← hd]
          exact hp.shuf_live a (getElem?_mem_of_some _ _ _ hg)
        · intro hd; simp at hd
    · refine Inv.play ?_ h
      refine hp.of_frame rfl rfl ?_ ?_
      · intro d hd
        exact nextOf_mem _ _ _ hd
      · intro hd
        have := h2.2
        simp only at hd
        rw [hd] at this
        simp at this
    · refine Inv.play ?_ h
      refine hp.of_frame rfl rfl ?_ ?_
      · intro d hd
        exact head_mem_of_ne_nil p d hd
      · intro hd
        exact (head_eq_none_iff p).mp hd
    · exact Inv.play hp h

theorem Inv.prev {p q : Playlist} (hp : Inv p) (h : prev p = some q) : Inv q := by
  unfold PlaylistManager.prev at h
  cases hc : p.current with
  | none => simp [hc] at h; subst h; exact hp
  | some c =>
    simp only [hc] at h
    split_ifs at h with h1 h2 h3
    · cases hg : p.shuffledOrder[p.shuffleIndex - 1]? with
      | none => simp [hg] at h
      | some a =>
        simp only [hg] at h
        refine Inv.play ?_ h
        refine hp.of_frame rfl rfl ?_ ?_
        · intro d hd
          simp at hd
          rw [← hd]
          exact hp.shuf_live a (getElem?_mem_of_some _ _ _ hg)
        · intro hd; simp at hd
    · refine Inv.play ?_ h
      refine hp.of_frame rfl rfl ?_ ?_
      · intro d hd
        exact prevOf_mem _ _ _ hd
      · intro hd
        have := h2.2
        simp only at hd
        rw [hd] at this
        simp at this
    · refine Inv.play ?_ h
      refine hp.of_frame rfl rfl ?_ ?_
      · intro d hd
        exact tail_mem_of_ne_nil p d hd
      · intro hd
        exact (tail_eq_none_iff p).mp hd
    · exact Inv.play hp h

/-- Every public call with defined behaviour preserves the representation
invariant. -/
theorem Inv.step {p q : Playlist} (hp : Inv p) (op : Op) (hadm : op.admissible p)
    (h : step p op = some q) : Inv q := by
  cases op with
  | addSong song =>
    simp only [PlaylistManager.step, Option.some.injEq] at h; subst h; exact hp.addSong song
  | removeSong title =>
    simp only [PlaylistManager.step, Option.some.injEq] at h; subst h; exact hp.removeSong title
  | modifySong title newSong =>
    simp only [PlaylistManager.step, Option.some.injEq] at h; subst h
    exact hp.of_same_addrs (modifyFirst_addr _ _ _) rfl rfl
  | sortByTitle sorted => exact hp.sortByTitle sorted hadm.1 h
  | toggleFavorite title =>
    simp only [PlaylistManager.step, Option.some.injEq] at h; subst h
    exact hp.of_same_addrs (flipFirst_addr _ _) rfl rfl
  | toggleRepeat enabled =>
    simp only [PlaylistManager.step, Option.some.injEq] at h; subst h
    exact hp.of_same_addrs rfl rfl rfl
  | toggleShuffle enable shuffled =>
    refine hp.toggleShuffle enable shuffled ?_ h
    intro he; subst he; exact hadm
  | play => exact hp.play h
  | next => exact hp.next h
  | prev => exact hp.prev h

theorem Reachable.inv {p : Playlist} (h : Reachable p) : Inv p := by
  induction h with
  | init n => exact Inv.init n
  | step op _ hadm hstep ih => exact ih.step op hadm hstep

/-- As long as every call made so far had defined behaviour, `current` is null
exactly when the chain is empty, and otherwise it is the address of a node that
is presently in the chain. A call that reads a vector outside its bounds ends
the defined part of a run, and what it leaves in `current` is not covered. -/
theorem defined_runs_current_member (p : Playlist) (h : Reachable p) :
    (p.current = none ↔ p.nodes = []) ∧
    (∀ c, p.current = some c → ∃ n ∈ p.nodes, n.addr = c) := by
  have hi := h.inv
  refine ⟨hi.null_iff, ?_⟩
  intro c hc
  have := hi.live c hc
  simpa [getNodeVector] using this

theorem demoAB_reachable : Reachable demoAB :=
  Reachable.step (Op.addSong songB)
    (Reachable.step (Op.addSong songA) (Reachable.init "My Playlist") trivial rfl) trivial rfl

theorem danglingCursor_reachable : Reachable danglingCursor := by
  have h0 := Reachable.init "My Playlist"
  have h1 := Reachable.step (Op.addSong songA) h0 trivial rfl
  have h2 := Reachable.step (Op.addSong songB) h1 trivial rfl
  have h3 := Reachable.step (Op.addSong songC) h2 trivial rfl
  have h4 := Reachable.step (Op.addSong songD) h3 trivial rfl
  have h5 := Reachable.step (Op.toggleShuffle true [1, 2, 3, 4]) h4
    (show List.Perm [1, 2, 3, 4] _ by decide) rfl
  have h6 := Reachable.step Op.next h5 trivial rfl
  have h7 := Reachable.step Op.next h6 trivial rfl
  have h8 := Reachable.step Op.next h7 trivial rfl
  have h9 := Reachable.step (Op.removeSong "D") h8 trivial rfl
  exact Reachable.step (Op.removeSong "C") h9 trivial (by decide)

/-- C2 (failing input). The public calls `danglingCalls` on a fresh playlist
(add `A, B, C, D`; shuffle drawn `A, B, C, D`; `next()` three times;
`removeSong("D")`; `removeSong("C")`) all have defined behaviour and end in
`danglingCursor`: chain `A, B`, shuffle vector of size 2, shuffle cursor 3. The
next public call `prev()` passes `shuffleIndex > 0` and assigns
`current = shuffledOrder[2]`, a read outside the vector, so `current` does not
receive the address of a member of the collection: the slot read lies behind
the end of the vector, where the address 3 of the deleted node `C` stood before
the removals, and 3 is no longer an address of the chain. -/
theorem prev_after_removals_reads_stale_slot :
    Reachable danglingCursor ∧
    run (Playlist.init "My Playlist") danglingCalls = some danglingCursor ∧
    danglingCursor.nodes = [⟨1, songA⟩, ⟨2, songB⟩] ∧
    danglingCursor.isShuffled = true ∧
    danglingCursor.shuffleIndex = 3 ∧
    danglingCursor.shuffledOrder = [1, 2] ∧
    danglingCursor.shuffledOrder[danglingCursor.shuffleIndex - 1]? = none ∧
    ([1, 2, 3, 4] : List Nat)[danglingCursor.shuffleIndex - 1]? = some 3 ∧
    3 ∉ getNodeVector danglingCursor ∧
    step danglingCursor Op.prev = none ∧
    run (Playlist.init "My Playlist") (danglingCalls ++ [Op.prev]) = none :=
  ⟨danglingCursor_reachable, by decide, rfl, rfl, rfl, rfl, by decide, by decide, by decide,
    by rfl, by decide⟩

/-! ## C3: calls on the empty playlist -/

/-- C3 (failing input). On the freshly constructed, empty playlist the vector
handed to `relinkNodes` by `sortByTitle()` is empty, and so is the vector
`toggleShuffle(true)` indexes at 0: `nodes.front()` and `shuffledOrder[0]` are
read outside the bounds, so neither call has defined behaviour. -/
theorem empty_sort_and_shuffle_undefined :
    sortByTitle (Playlist.init "My Playlist") [] = none ∧
    toggleShuffle (Playlist.init "My Playlist") true [] = none :=
  ⟨rfl, rfl⟩

/-- On an empty playlist the only vectors `std::sort` and `std::shuffle` can
return are empty, so the two calls are undefined whatever the library does. -/
theorem empty_playlist_sort_shuffle_all (p : Playlist) (hempty : p.nodes = []) :
    (∀ sorted, StdSortPost p.nodes sorted → sortByTitle p sorted = none) ∧
    (∀ shuffled, StdShufflePost (getNodeVector p) shuffled →
      toggleShuffle p true shuffled = none) := by
  constructor
  · intro sorted h
    have : sorted = [] := by
      have := h.1
      rw [hempty] at this
      exact List.Perm.eq_nil this
    subst this; rfl
  · intro shuffled h
    have : shuffled = [] := by
      unfold StdShufflePost getNodeVector at h
      rw [hempty] at h
      exact List.Perm.eq_nil h
    subst this; rfl

/-- The remaining methods are guarded: on an empty playlist with a null cursor
they complete and leave the chain empty and the cursor null. -/
theorem empty_guarded_calls (p : Playlist) (hempty : p.nodes = []) (hcur : p.current = none)
    (title : String) (song : Song) (flag : Bool) (ignored : List Nat) :
    (removeSong p title = p) ∧
    (modifySong p title song = p) ∧
    (toggleFavorite p title = p) ∧
    ((toggleRepeat p flag).nodes = [] ∧ (toggleRepeat p flag).current = none) ∧
    (∃ q, toggleShuffle p false ignored = some q ∧ q.nodes = [] ∧ q.current = none) ∧
    (play p = some p) ∧ (next p = some p) ∧ (prev p = some p) := by
  refine ⟨?_, ?_, ?_, ?_, ?_, ?_, ?_, ?_⟩
  · simp [removeSong, hempty, findByTitle]
  · cases p; simp_all [modifySong, modifyFirst]
  · cases p; simp_all [toggleFavorite, flipFirst]
  · simp [toggleRepeat, hempty, hcur]
  · exact ⟨_, rfl, hempty, by simp [head, hempty]⟩
  · simp [play, hcur]
  · simp [next, hcur]
  · simp [prev, hcur]

/-! ## C4: the bounded history -/

theorem addToHistory_lastTen (log : List Song) (s : Song) :
    addToHistory (log.drop (log.length - 10)) s =
      (log ++ [s]).drop ((log ++ [s]).length - 10) := by
  unfold addToHistory maxHistorySize
  by_cases h : log.length < 10
  · have h0 : log.length - 10 = 0 := by omega
    have h1 : (log ++ [s]).length - 10 = 0 := by simp; omega
    rw [h0, h1]
    simp only [List.drop_zero]
    rw [if_neg (by omega)]
  · have hlen : (log.drop (log.length - 10)).length = 10 := by
      rw [List.length_drop]; omega
    rw [if_pos (by omega)]
    have h1 : (log ++ [s]).length - 10 = log.length - 10 + 1 := by simp; omega
    rw [h1, List.tail_drop, List.drop_append_of_le_length (by omega)]

/-- What `play` does to the history: it records the entry under the cursor,
and nothing when the cursor is null. -/
theorem play_history (p q : Playlist) (h : play p = some q) :
    q.history = (playedEntry q).foldl addToHistory p.history := by
  unfold play at h
  cases hc : p.current with
  | none =>
    simp [hc] at h; subst h
    simp [playedEntry, hc]
  | some c =>
    simp only [hc] at h
    cases hd : deref p.nodes c with
    | none => simp [hd] at h
    | some n =>
      simp [hd] at h; subst h
      simp [playedEntry, hc, hd]

theorem next_history (p q : Playlist) (h : next p = some q) :
    q.history = (playedEntry q).foldl addToHistory p.history := by
  unfold next at h
  cases hc : p.current with
  | none =>
    simp [hc] at h; subst h
    simp [playedEntry, hc]
  | some c =>
    simp only [hc] at h
    split_ifs at h
    · cases hg : p.shuffledOrder[p.shuffleIndex + 1]? with
      | none => simp [hg] at h
      | some a =>
        simp only [hg] at h
        exact (play_history _ _ h :)
    · exact (play_history _ _ h :)
    · exact (play_history _ _ h :)
    · exact (play_history _ _ h :)

theorem prev_history (p q : Playlist) (h : prev p = some q) :
    q.history = (playedEntry q).foldl addToHistory p.history := by
  unfold prev at h
  cases hc : p.current with
  | none =>
    simp [hc] at h; subst h
    simp [playedEntry, hc]
  | some c =>
    simp only [hc] at h
    split_ifs at h
    · cases hg : p.shuffledOrder[p.shuffleIndex - 1]? with
      | none => simp [hg] at h
      | some a =>
        simp only [hg] at h
        exact (play_history _ _ h :)
    · exact (play_history _ _ h :)
    · exact (play_history _ _ h :)
    · exact (play_history _ _ h :)

theorem toggleShuffle_history (p q : Playlist) (enable : Bool) (shuffled : List Nat)
    (h : toggleShuffle p enable shuffled = some q) : q.history = p.history := by
  cases enable with
  | true =>
    cases shuffled with
    | nil => simp [toggleShuffle] at h
    | cons a rest => simp [toggleShuffle] at h; subst h; rfl
  | false => simp [toggleShuffle] at h; subst h; rfl

theorem sortByTitle_history (p q : Playlist) (sorted : List Node)
    (h : sortByTitle p sorted = some q) : q.history = p.history := by
  cases sorted with
  | nil => simp [sortByTitle, relinkNodes] at h
  | cons a rest => simp [sortByTitle, relinkNodes] at h; subst h; rfl

theorem removeSong_history (p : Playlist) (title : String) :
    (removeSong p title).history = p.history := by
  unfold removeSong
  cases findByTitle p.nodes title <;> rfl

/-- Every call appends exactly the plays it performs to the history, through
`addToHistory`. -/
theorem step_history (p q : Playlist) (op : Op) (h : step p op = some q) :
    q.history = (playedBy op q).foldl addToHistory p.history := by
  cases op with
  | addSong song => simp only [step, Option.some.injEq] at h; subst h; rfl
  | removeSong title =>
    simp only [step, Option.some.injEq] at h; subst h
    exact removeSong_history p title
  | modifySong title newSong => simp only [step, Option.some.injEq] at h; subst h; rfl
  | sortByTitle sorted => exact sortByTitle_history p q sorted h
  | toggleFavorite title => simp only [step, Option.some.injEq] at h; subst h; rfl
  | toggleRepeat enabled => simp only [step, Option.some.injEq] at h; subst h; rfl
  | toggleShuffle enable shuffled => exact toggleShuffle_history p q enable shuffled h
  | play => exact play_history p q h
  | next => exact next_history p q h
  | prev => exact prev_history p q h

theorem playedEntry_cases (q : Playlist) :
    playedEntry q = [] ∨ ∃ s, playedEntry q = [s] := by
  unfold playedEntry
  cases q.current with
  | none => exact Or.inl rfl
  | some c =>
    cases hd : deref q.nodes c with
    | none => simp [hd]
    | some n => simp [hd]

theorem playedBy_cases (op : Op) (q : Playlist) :
    playedBy op q = [] ∨ ∃ s, playedBy op q = [s] := by
  cases op with
  | play => exact playedEntry_cases q
  | next => exact playedEntry_cases q
  | prev => exact playedEntry_cases q
  | _ => exact Or.inl rfl

/-- C4. In every state reachable from a freshly constructed playlist, with `log`
the plays performed so far in order (by `play()` directly or through
`next()`/`prev()`): the history has at most 10 entries, it has `min n 10`
entries for `n` the number of plays, and it is the last `min n 10` entries of the
log, oldest first. -/
theorem history_is_last_ten_plays (p : Playlist) (log : List Song) (h : Trace p log) :
    p.history.length ≤ 10 ∧
    p.history.length = min log.length 10 ∧
    p.history = log.drop (log.length - min log.length 10) := by
  have key : p.history = log.drop (log.length - 10) := by
    induction h with
    | init n => rfl
    | @step p q log op _ _ hstep ih =>
      rw [step_history p q op hstep, ih]
      have hcases := playedBy_cases op q
      rcases hcases with h0 | ⟨s, h1⟩
      · rw [h0]; simp
      · rw [h1]; simpa using addToHistory_lastTen log s
  have hlen : p.history.length = min log.length 10 := by
    rw [key, List.length_drop]; omega
  refine ⟨by omega, hlen, ?_⟩
  rw [key]
  congr 1
  omega

theorem Op.admissible_of_plain (p : Playlist) (op : Op) (h : op.plain = true) :
    op.admissible p := by
  cases op with
  | sortByTitle sorted => simp [Op.plain] at h
  | toggleShuffle enable shuffled =>
    cases enable with
    | true => simp [Op.plain] at h
    | false => trivial
  | _ => trivial

theorem trace_of_runLog {p q : Playlist} {log log2 : List Song} (ops : List Op)
    (hplain : ∀ op ∈ ops, op.plain = true) (ht : Trace p log)
    (h : runLog p log ops = some (q, log2)) : Trace q log2 := by
  induction ops generalizing p log with
  | nil =>
    simp only [runLog, Option.some.injEq, Prod.mk.injEq] at h
    obtain ⟨h1, h2⟩ := h
    subst h1; subst h2; exact ht
  | cons op ops ih =>
    simp only [runLog] at h
    cases hs : step p op with
    | none => simp [hs] at h
    | some r =>
      simp only [hs] at h
      refine ih (fun o ho => hplain o (List.mem_cons_of_mem _ ho)) ?_ h
      exact Trace.step op ht
        (Op.admissible_of_plain p op (hplain op (List.mem_cons_self _ _))) hs

theorem looped_trace : Trace looped.1 looped.2 :=
  trace_of_runLog loopCalls (by decide) (Trace.init "My Playlist") (by rfl)

/-- Instance of C4: after fifteen `next()` calls on a three-entry playlist with
repeat enabled, fifteen plays are logged and the history is the last ten of
them, `A B C A B C A B C A`. -/
theorem history_is_last_ten_plays_witness :
    (looped.1.history.length ≤ 10 ∧
     looped.1.history.length = min looped.2.length 10 ∧
     looped.1.history = looped.2.drop (looped.2.length - min looped.2.length 10)) ∧
    looped.2.length = 15 ∧
    looped.1.history = [songA, songB, songC, songA, songB, songC, songA, songB, songC, songA] :=
  ⟨history_is_last_ten_plays looped.1 looped.2 looped_trace, by rfl, by rfl⟩

/-! ## C5: `next()` at the tail without repeat or shuffle -/

/-- C5. On a non-empty playlist with shuffle and repeat disabled whose cursor is
on the tail `t`, `next()` completes, leaves the cursor on the tail, and the
history afterwards is `addToHistory` of the history before and the tail entry
(appended, after evicting the oldest entry if ten were held). -/
theorem next_at_tail_replays (p : Playlist) (front : List Node) (t : Node)
    (hnodes : p.nodes = front ++ [t])
    (hnd : (getNodeVector p).Nodup)
    (hshuf : p.isShuffled = false) (hrep : p.repeatFlag = false)
    (hcur : p.current = some t.addr) :
    ∃ q, next p = some q ∧ q.current = some t.addr ∧ tail q = some t.addr ∧
      q.nodes = p.nodes ∧ q.history = addToHistory p.history t.data := by
  have hfresh : ∀ m ∈ front, m.addr ≠ t.addr := by
    apply fresh_of_nodup front [] t
    simpa [getNodeVector, hnodes] using hnd
  have hnext : nextOf p.nodes t.addr = none := by
    rw [hnodes, nextOf_append front [] t hfresh]; rfl
  have hderef : deref p.nodes t.addr = some t := by
    rw [hnodes]; exact deref_append front [] t hfresh
  refine ⟨{ p with state := PlaybackState.Playing,
                   history := addToHistory p.history t.data }, ?_, hcur, ?_, rfl, rfl⟩
  · simp [next, hcur, hshuf, hrep, hnext, play, hderef]
  · simp [tail, hnodes]

/-- Instance of C5: the cursor of `demo3` moved to its last entry `C`. -/
theorem next_at_tail_replays_witness :
    ∃ q, next { demo3 with current := some 3 } = some q ∧ q.current = some 3 ∧
      tail q = some 3 ∧ q.nodes = demo3.nodes ∧ q.history = [songC] :=
  next_at_tail_replays { demo3 with current := some 3 } [⟨1, songA⟩, ⟨2, songB⟩] ⟨3, songC⟩
    rfl (by decide) rfl rfl rfl

/-! ## C6: the example scenario -/

/-- C6 (as stated, refuted). On the freshly constructed playlist with `A` and
`B` added nothing has been played, so the first `next()` leaves the history
`[B]`, not `[A, B]`. -/
theorem scenario_fresh_history :
    ∃ q, next demoAB = some q ∧ q.current = some 2 ∧ q.history = [songB] ∧
      q.history ≠ [songA, songB] :=
  ⟨{ demoAB with current := some 2, state := PlaybackState.Playing, history := [songB] },
    by rfl, by rfl, by rfl, by decide⟩

/-- C6 (amended). On the freshly constructed playlist with `A` (180 s) and `B`
(200 s) added, shuffle and repeat disabled, once `A` has been played by
`play()`: `next()` moves the cursor to `B` with history `[A, B]`, and a second
`next()` leaves the cursor on `B` with history `[A, B, B]`. -/
theorem scenario_after_play :
    ∃ q0 q1 q2, play demoAB = some q0 ∧ q0.current = some 1 ∧ q0.history = [songA] ∧
      next q0 = some q1 ∧ q1.current = some 2 ∧ deref q1.nodes 2 = some ⟨2, songB⟩ ∧
        q1.history = [songA, songB] ∧
      next q1 = some q2 ∧ q2.current = some 2 ∧ deref q2.nodes 2 = some ⟨2, songB⟩ ∧
        q2.history = [songA, songB, songB] :=
  ⟨{ demoAB with state := PlaybackState.Playing, history := [songA] },
   { demoAB with current := some 2, state := PlaybackState.Playing,
                 history := [songA, songB] },
   { demoAB with current := some 2, state := PlaybackState.Playing,
                 history := [songA, songB, songB] },
   by rfl, by rfl, by rfl, by rfl, by rfl, by rfl, by rfl, by rfl, by rfl, by rfl, by rfl⟩

/-! ## C7: wrapping under repeat -/

theorem shuffledEnd_reachable : Reachable shuffledEnd :=
  Reachable.step Op.next
    (Reachable.step (Op.toggleShuffle true [2, 1])
      (Reachable.step (Op.toggleRepeat true) demoAB_reachable trivial rfl)
      (show List.Perm [2, 1] (getNodeVector (toggleRepeat demoAB true)) by decide) rfl)
    trivial (by rfl)

theorem shuffleWrapEnd_reachable : Reachable shuffleWrapEnd := by
  have h0 := Reachable.init "My Playlist"
  have h1 := Reachable.step (Op.addSong songA) h0 trivial rfl
  have h2 := Reachable.step (Op.addSong songB) h1 trivial rfl
  have h3 := Reachable.step (Op.addSong songC) h2 trivial rfl
  have h4 := Reachable.step (Op.toggleRepeat true) h3 trivial rfl
  have h5 := Reachable.step (Op.toggleShuffle true [2, 1, 3]) h4
    (show List.Perm [2, 1, 3] _ by decide) rfl
  have h6 := Reachable.step Op.next h5 trivial rfl
  exact Reachable.step Op.next h6 trivial (by decide)

/-- C7 (failing input). In the reachable state `shuffleWrapEnd` repeat and
shuffle are enabled, the permutation is `B, A, C`, the shuffle cursor is on its
last position 2 and `current` is `C`. `next()` cannot advance; it moves the
cursor to the linear head `A`, not to the first element `B` of the
permutation, and leaves the shuffle cursor at 2 instead of returning it to 0.
The cursor therefore never re-enters the permutation: a further `next()` ends on
`A` again with the shuffle cursor still 2. -/
theorem next_shuffle_repeat_stuck_on_head :
    Reachable shuffleWrapEnd ∧
    (shuffleWrapEnd.isShuffled = true ∧ shuffleWrapEnd.repeatFlag = true ∧
     shuffleWrapEnd.shuffleIndex + 1 = shuffleWrapEnd.shuffledOrder.length ∧
     shuffleWrapEnd.current = shuffleWrapEnd.shuffledOrder[shuffleWrapEnd.shuffleIndex]? ∧
     shuffleWrapEnd.current = some 3) ∧
    ∃ q1 q2, next shuffleWrapEnd = some q1 ∧
      head q1 = some 1 ∧ q1.current = some 1 ∧
      q1.shuffledOrder[0]? = some 2 ∧ q1.current ≠ q1.shuffledOrder[0]? ∧
      q1.shuffleIndex = 2 ∧ q1.shuffleIndex ≠ 0 ∧
      next q1 = some q2 ∧ q2.current = some 1 ∧ q2.shuffleIndex = 2 ∧
      q2.history = [songA, songC, songA, songA] :=
  ⟨shuffleWrapEnd_reachable, by decide,
    { shuffleWrapEnd with current := some 1, history := [songA, songC, songA] },
    { shuffleWrapEnd with current := some 1, history := [songA, songC, songA, songA] },
    by rfl, by rfl, by rfl, by rfl, by decide, by rfl, by decide, by rfl, by rfl, by rfl, by rfl⟩

/-- What the branch `else if (repeat) current = head;` of `next()` does. On a
non-empty playlist with repeat enabled and a non-null cursor, when `next()`
cannot advance in the active mode (shuffle disabled and the cursor on the tail,
or shuffle enabled and the shuffle cursor on or past the last position of the
permutation), the cursor is set to the linear head and that entry is played. In
linear mode this is the wrap the specification asks for; in shuffle mode the
shuffle vector and the shuffle cursor are not touched. -/
theorem next_wrap_branch (p : Playlist) (h : Node) (rest : List Node)
    (hnodes : p.nodes = h :: rest)
    (hnd : (getNodeVector p).Nodup)
    (hcur : p.current ≠ none)
    (hrep : p.repeatFlag = true)
    (hstuck : (p.isShuffled = false ∧ p.current = tail p) ∨
              (p.isShuffled = true ∧ p.shuffledOrder.length ≤ p.shuffleIndex + 1)) :
    next p = some { p with current := some h.addr, state := PlaybackState.Playing,
                           history := addToHistory p.history h.data } := by
  cases hc : p.current with
  | none => exact absurd hc hcur
  | some c =>
    have hhead : head p = some h.addr := by simp [head, hnodes]
    have hderef : deref p.nodes h.addr = some h := by simp [hnodes, deref]
    rcases hstuck with ⟨hs, ht⟩ | ⟨hs, hl⟩
    · obtain ⟨front, t, hsplit⟩ : ∃ front t, p.nodes = front ++ [t] := by
        rcases List.eq_nil_or_concat p.nodes with h0 | ⟨front, t, h1⟩
        · rw [hnodes] at h0; cases h0
        · exact ⟨front, t, by simpa using h1⟩
      have htail : tail p = some t.addr := by simp [tail, hsplit]
      have hct : c = t.addr := by
        rw [hc, htail] at ht
        exact Option.some.inj ht
      have hfresh : ∀ m ∈ front, m.addr ≠ t.addr := by
        apply fresh_of_nodup front [] t
        simpa [getNodeVector, hsplit] using hnd
      have hnext : nextOf p.nodes c = none := by
        rw [hct, hsplit, nextOf_append front [] t hfresh]; rfl
      simp [next, hc, hs, hrep, hnext, hhead, play, hderef]
    · have hnot : ¬ (p.shuffleIndex + 1 < p.shuffledOrder.length) := by omega
      simp [next, hc, hs, hrep, hnot, hhead, play, hderef]

/-! ## C8: leaving shuffle mode -/

theorem play_total (r : Playlist) (c : Nat) (hc : r.current = some c)
    (hm : c ∈ getNodeVector r) :
    ∃ q, play r = some q ∧ q.nodes = r.nodes ∧ q.current = r.current ∧
      q.shuffledOrder = r.shuffledOrder ∧ q.shuffleIndex = r.shuffleIndex ∧
      q.isShuffled = r.isShuffled := by
  obtain ⟨n, hd, -, -⟩ := deref_of_mem r.nodes c hm
  have hplay : play r = some { r with state := PlaybackState.Playing,
                                      history := addToHistory r.history n.data } := by
    simp [play, hc, hd]
  exact ⟨_, hplay, rfl, rfl, rfl, rfl, rfl⟩

theorem ShuffleNav.play_of {p0 r : Playlist} {shuffled : List Nat}
    (h : ShuffleNav p0 shuffled r) :
    ∃ q, play r = some q ∧ ShuffleNav p0 shuffled q := by
  obtain ⟨c, hc, hm⟩ := h.cursor_live
  have hm2 : c ∈ getNodeVector r := by simpa [getNodeVector, h.nodes_eq] using hm
  obtain ⟨q, hq, h1, h2, h3, h4, h5⟩ := play_total r c hc hm2
  refine ⟨q, hq, ?_⟩
  exact ⟨by rw [h1, h.nodes_eq], by rw [h3, h.order_eq], by rw [h5, h.shuffle_on],
    by rw [h4]; exact h.index_lt, ⟨c, by rw [h2, hc], hm⟩, h.order_live⟩

theorem ShuffleNav.next_total {p0 r : Playlist} {shuffled : List Nat}
    (h : ShuffleNav p0 shuffled r) :
    ∃ q, next r = some q ∧ ShuffleNav p0 shuffled q := by
  obtain ⟨c, hc, hm⟩ := h.cursor_live
  have hs := h.shuffle_on
  by_cases hadv : r.shuffleIndex + 1 < r.shuffledOrder.length
  · have hget : r.shuffledOrder[r.shuffleIndex + 1]? =
        some (r.shuffledOrder[r.shuffleIndex + 1]) := List.getElem?_eq_getElem hadv
    have hmem : r.shuffledOrder[r.shuffleIndex + 1] ∈ shuffled := by
      rw [← h.order_eq]; exact List.getElem_mem _
    have hnext : next r = play
        { r with shuffleIndex := r.shuffleIndex + 1, current := some (r.shuffledOrder[r.shuffleIndex + 1]) } := by
      simp [next, hc, hs, hadv]
    rw [hnext]
    apply ShuffleNav.play_of
    exact ⟨h.nodes_eq, h.order_eq, hs, by rw [← h.order_eq]; exact hadv,
      ⟨_, rfl, h.order_live _ hmem⟩, h.order_live⟩
  · by_cases hrep : r.repeatFlag = true
    · have hnext : next r = play { r with current := head r } := by
        simp [next, hc, hs, hadv, hrep]
      rw [hnext]
      apply ShuffleNav.play_of
      have hne : r.nodes ≠ [] := by
        intro e; rw [h.nodes_eq] at e; simp [getNodeVector, e] at hm
      obtain ⟨a, ha⟩ : ∃ a, head r = some a := by
        cases hh : head r with
        | none => exact absurd ((head_eq_none_iff r).mp hh) hne
        | some a => exact ⟨a, rfl⟩
      have hmem := head_mem_of_ne_nil r a ha
      simp only [getNodeVector, h.nodes_eq] at hmem
      exact ⟨h.nodes_eq, h.order_eq, hs, h.index_lt, ⟨a, ha, hmem⟩, h.order_live⟩
    · have hnext : next r = play r := by
        simp [next, hc, hs, hadv, hrep]
      rw [hnext]
      exact h.play_of

theorem ShuffleNav.prev_total {p0 r : Playlist} {shuffled : List Nat}
    (h : ShuffleNav p0 shuffled r) :
    ∃ q, prev r = some q ∧ ShuffleNav p0 shuffled q := by
  obtain ⟨c, hc, hm⟩ := h.cursor_live
  have hs := h.shuffle_on
  have hidx := h.index_lt
  by_cases hback : r.shuffleIndex > 0
  · have hlt : r.shuffleIndex - 1 < r.shuffledOrder.length := by
      rw [h.order_eq]; omega
    have hget : r.shuffledOrder[r.shuffleIndex - 1]? =
        some (r.shuffledOrder[r.shuffleIndex - 1]) := List.getElem?_eq_getElem hlt
    have hmem : r.shuffledOrder[r.shuffleIndex - 1] ∈ shuffled := by
      rw [← h.order_eq]; exact List.getElem_mem _
    have hprev : prev r = play
        { r with shuffleIndex := r.shuffleIndex - 1, current := some (r.shuffledOrder[r.shuffleIndex - 1]) } := by
      simp [prev, hc, hs, hback, hget]
    rw [hprev]
    apply ShuffleNav.play_of
    exact ⟨h.nodes_eq, h.order_eq, hs, by show r.shuffleIndex - 1 < shuffled.length; omega,
      ⟨_, rfl, h.order_live _ hmem⟩, h.order_live⟩
  · by_cases hrep : r.repeatFlag = true
    · have hprev : prev r = play { r with current := tail r } := by
        simp [prev, hc, hs, hback, hrep]
      rw [hprev]
      apply ShuffleNav.play_of
      have hne : r.nodes ≠ [] := by
        intro e; rw [h.nodes_eq] at e; simp [getNodeVector, e] at hm
      obtain ⟨a, ha⟩ : ∃ a, tail r = some a := by
        cases hh : tail r with
        | none => exact absurd ((tail_eq_none_iff r).mp hh) hne
        | some a => exact ⟨a, rfl⟩
      have hmem := tail_mem_of_ne_nil r a ha
      simp only [getNodeVector, h.nodes_eq] at hmem
      exact ⟨h.nodes_eq, h.order_eq, hs, h.index_lt, ⟨a, ha, hmem⟩, h.order_live⟩
    · have hprev : prev r = play r := by
        simp [prev, hc, hs, hback, hrep]
      rw [hprev]
      exact h.play_of

theorem ShuffleNav.run_total {p0 r : Playlist} {shuffled : List Nat}
    (navs : List Op) (hnav : ∀ op ∈ navs, op = Op.next ∨ op = Op.prev)
    (h : ShuffleNav p0 shuffled r) :
    ∃ q, run r navs = some q ∧ ShuffleNav p0 shuffled q := by
  induction navs generalizing r with
  | nil => exact ⟨r, rfl, h⟩
  | cons op navs ih =>
    have hrest : ∀ o ∈ navs, o = Op.next ∨ o = Op.prev :=
      fun o ho => hnav o (List.mem_cons_of_mem _ ho)
    rcases hnav op (List.mem_cons_self _ _) with e | e
    · subst e
      obtain ⟨q, hq, hj⟩ := h.next_total
      obtain ⟨q2, hq2, hj2⟩ := ih hrest hj
      exact ⟨q2, by simp [run, step, hq, hq2], hj2⟩
    · subst e
      obtain ⟨q, hq, hj⟩ := h.prev_total
      obtain ⟨q2, hq2, hj2⟩ := ih hrest hj
      exact ⟨q2, by simp [run, step, hq, hq2], hj2⟩

theorem run_append (p : Playlist) (xs ys : List Op) :
    run p (xs ++ ys) = (run p xs).bind (fun q => run q ys) := by
  induction xs generalizing p with
  | nil => rfl
  | cons x xs ih =>
    simp only [List.cons_append, run]
    cases step p x with
    | none => rfl
    | some q => exact ih q

/-- C8. On a non-empty playlist, `toggleShuffle(true)` with any permutation
drawn, followed by any number of `next()`/`prev()` calls and then
`toggleShuffle(false)`, has defined behaviour throughout and ends with shuffle
mode off and the cursor on the head of the (unchanged) linear order. -/
theorem shuffle_off_resets_to_head (p : Playlist) (shuffled ignored : List Nat)
    (navs : List Op)
    (hne : p.nodes ≠ [])
    (hperm : StdShufflePost (getNodeVector p) shuffled)
    (hnav : ∀ op ∈ navs, op = Op.next ∨ op = Op.prev) :
    ∃ q, run p (Op.toggleShuffle true shuffled :: (navs ++ [Op.toggleShuffle false ignored]))
        = some q ∧
      q.isShuffled = false ∧ q.nodes = p.nodes ∧ q.current = head p ∧ head p ≠ none := by
  have hperm2 : shuffled.Perm (getNodeVector p) := hperm
  obtain ⟨a, rest, hsh⟩ : ∃ a rest, shuffled = a :: rest := by
    cases shuffled with
    | nil =>
      have := hperm2.symm.eq_nil
      simp [getNodeVector] at this
      exact absurd this hne
    | cons a rest => exact ⟨a, rest, rfl⟩
  have hstart : step p (Op.toggleShuffle true shuffled) =
      some { p with isShuffled := true, shuffledOrder := shuffled, shuffleIndex := 0,
                    current := some a } := by
    simp [step, toggleShuffle, hsh]
  have hj : ShuffleNav p shuffled
      { p with isShuffled := true, shuffledOrder := shuffled, shuffleIndex := 0,
               current := some a } :=
    ⟨rfl, rfl, rfl, by simp [hsh],
      ⟨a, rfl, hperm2.mem_iff.mp (by simp [hsh])⟩, fun b hb => hperm2.mem_iff.mp hb⟩
  obtain ⟨r, hr, hjr⟩ := ShuffleNav.run_total navs hnav hj
  refine ⟨{ r with isShuffled := false, current := head r }, ?_, rfl, hjr.nodes_eq, ?_, ?_⟩
  · simp only [run, hstart]
    rw [run_append, hr]
    simp [run, step, toggleShuffle]
  · simp [head, hjr.nodes_eq]
  · intro h0
    exact hne ((head_eq_none_iff p).mp h0)

/-- Instance of C8 on `demo3`: shuffle drawn as `C, A, B`, then `next`, `next`,
`prev`, then shuffle off; the cursor ends on the head `A`. -/
theorem shuffle_off_resets_to_head_witness :
    ∃ q, run demo3 (Op.toggleShuffle true [3, 1, 2] ::
          ([Op.next, Op.next, Op.prev] ++ [Op.toggleShuffle false []])) = some q ∧
      q.isShuffled = false ∧ q.nodes = demo3.nodes ∧ q.current = head demo3 ∧
      head demo3 ≠ none :=
  shuffle_off_resets_to_head demo3 [3, 1, 2] [] [Op.next, Op.next, Op.prev]
    (by decide) (show List.Perm [3, 1, 2] (getNodeVector demo3) by decide) (by simp)

/-! ## C9: what `sortByTitle()` establishes -/

/-- C9. On a non-empty playlist `sortByTitle()` completes; the entry sequence
afterwards is a rearrangement of the one before (same entries with the same
multiplicities), its titles ascend in lexicographic order, the cursor is on the
new head, and the shuffle flag is unchanged. -/
theorem sortByTitle_sorts (p : Playlist) (sorted : List Node)
    (hne : p.nodes ≠ [])
    (hsort : StdSortPost p.nodes sorted) :
    ∃ q, sortByTitle p sorted = some q ∧
      q.nodes.Perm p.nodes ∧
      (q.nodes.map Node.data).Perm (p.nodes.map Node.data) ∧
      (q.nodes.map (fun n => n.data.title)).Pairwise (fun s t => s ≤ t) ∧
      q.current = head q ∧ head q ≠ none ∧
      q.isShuffled = p.isShuffled := by
  obtain ⟨hperm, hpw⟩ := hsort
  cases sorted with
  | nil => exact absurd hperm.symm.eq_nil hne
  | cons n rest =>
    refine ⟨{ p with nodes := n :: rest, current := some n.addr }, rfl, hperm,
      hperm.map _, ?_, rfl, by simp [head], rfl⟩
    rw [List.pairwise_map]
    exact hpw.imp (fun h => not_lt.mp h)

theorem demoBAC_sort_post :
    StdSortPost demoBAC.nodes [⟨2, songA⟩, ⟨1, songB⟩, ⟨3, songC⟩] := by
  refine ⟨by decide, ?_⟩
  simp only [titleLess, songA, songB, songC, String.lt_iff_toList_lt]
  decide

/-- Instance of C9: sorting `B, A, C` gives `A, B, C` with the cursor on `A`. -/
theorem sortByTitle_sorts_witness :
    ∃ q, sortByTitle demoBAC [⟨2, songA⟩, ⟨1, songB⟩, ⟨3, songC⟩] = some q ∧
      q.nodes.Perm demoBAC.nodes ∧
      (q.nodes.map Node.data).Perm (demoBAC.nodes.map Node.data) ∧
      (q.nodes.map (fun n => n.data.title)).Pairwise (fun s t => s ≤ t) ∧
      q.current = head q ∧ head q ≠ none ∧
      q.isShuffled = demoBAC.isShuffled :=
  sortByTitle_sorts demoBAC [⟨2, songA⟩, ⟨1, songB⟩, ⟨3, songC⟩] (by decide) demoBAC_sort_post

/-! ## C10: `std::sort` and entries with equal titles -/

theorem dupSorted_titles : ∀ n ∈ dupSorted, n.data.title = "Song" := by decide

/-- The order `dupSorted` is one `std::sort` may leave `dupNodes` in: it is a
rearrangement, and no entry has a smaller title than an earlier one. -/
theorem dup17_sort_post : StdSortPost dup17.nodes dupSorted := by
  refine ⟨by decide, ?_⟩
  apply List.pairwise_of_forall_mem_list
  intro a ha b hb
  unfold titleLess
  rw [dupSorted_titles a ha, dupSorted_titles b hb]
  exact lt_irrefl _

/-- C10 (as stated, refuted). Seventeen entries share one title; `std::sort` may
leave them in the order `dupSorted`, and then the entry added first (address 1)
stands after the entry added ninth (address 9): the relative order of entries
with equal titles is not preserved. -/
theorem sortByTitle_not_stable :
    StdSortPost dup17.nodes dupSorted ∧
    ∃ q, sortByTitle dup17 dupSorted = some q ∧ ¬ StableOrder dup17.nodes q.nodes := by
  refine ⟨dup17_sort_post, { dup17 with nodes := dupSorted, current := some 9 }, by rfl, ?_⟩
  intro hstable
  have h := hstable (dupNode 1) (dupNode 9) (by decide) (by decide)
  revert h
  decide

/-- C10 (amended). On a non-empty playlist `sortByTitle()` completes and keeps
entries with equal titles together without fixing their relative order: for
every title, the entries carrying it afterwards are a rearrangement of those
carrying it before, and any entry standing between two entries of equal title
has that title too. -/
theorem sortByTitle_groups_equal_titles (p : Playlist) (sorted : List Node)
    (hne : p.nodes ≠ [])
    (hsort : StdSortPost p.nodes sorted) :
    ∃ q, sortByTitle p sorted = some q ∧
      (∀ t : String, (q.nodes.filter (fun n => decide (n.data.title = t))).Perm
                     (p.nodes.filter (fun n => decide (n.data.title = t)))) ∧
      (∀ a m b : Node, [a, m, b].Sublist q.nodes → a.data.title = b.data.title →
        m.data.title = a.data.title) := by
  obtain ⟨hperm, hpw⟩ := hsort
  cases sorted with
  | nil => exact absurd hperm.symm.eq_nil hne
  | cons n rest =>
    refine ⟨{ p with nodes := n :: rest, current := some n.addr }, rfl, ?_, ?_⟩
    · intro t
      exact hperm.filter _
    · intro a m b hsub hab
      have h3 := hpw.sublist hsub
      simp only [List.pairwise_cons, List.mem_cons, List.mem_singleton, forall_eq_or_imp,
        forall_eq, titleLess, not_lt] at h3
      obtain ⟨⟨ham, -⟩, ⟨hmb, -⟩, -⟩ := h3
      rw [← hab] at hmb
      exact le_antisymm hmb ham

/-- Instance of C10 (amended) on the seventeen equal-title entries. -/
theorem sortByTitle_groups_equal_titles_witness :
    ∃ q, sortByTitle dup17 dupSorted = some q ∧
      (∀ t : String, (q.nodes.filter (fun n => decide (n.data.title = t))).Perm
                     (dup17.nodes.filter (fun n => decide (n.data.title = t)))) ∧
      (∀ a m b : Node, [a, m, b].Sublist q.nodes → a.data.title = b.data.title →
        m.data.title = a.data.title) :=
  sortByTitle_groups_equal_titles dup17 dupSorted (by decide) dup17_sort_post

/-! ## C11: sorting a sorted playlist -/

theorem dupNodes_titles : ∀ n ∈ dupNodes, n.data.title = "Song" := by decide

/-- C11 (as stated, refuted). The seventeen entries of `dup17` all carry one
title, so the playlist is in ascending title order; `std::sort` may still leave
them in the order `dupSorted`, and the entry sequence after `sortByTitle()` then
differs from the one before. -/
theorem sortByTitle_sorted_input_reordered :
    (dup17.nodes.map (fun n => n.data.title)).Pairwise (fun s t => s ≤ t) ∧
    StdSortPost dup17.nodes dupSorted ∧
    ∃ q, sortByTitle dup17 dupSorted = some q ∧
      q.nodes.map Node.data ≠ dup17.nodes.map Node.data := by
  refine ⟨?_, dup17_sort_post,
    { dup17 with nodes := dupSorted, current := some 9 }, by rfl, by decide⟩
  rw [List.pairwise_map]
  apply List.pairwise_of_forall_mem_list
  intro a ha b hb
  rw [dupNodes_titles a ha, dupNodes_titles b hb]

/-- C11 (amended). On a non-empty playlist whose titles are in strictly
ascending order (ascending, no title occurring twice), `sortByTitle()` completes
and yields exactly the same entry sequence, whatever `std::sort` does with
equivalent elements. -/
theorem sortByTitle_idempotent_strict (p : Playlist) (sorted : List Node)
    (hne : p.nodes ≠ [])
    (hasc : p.nodes.Pairwise titleLess)
    (hsort : StdSortPost p.nodes sorted) :
    ∃ q, sortByTitle p sorted = some q ∧ q.nodes = p.nodes := by
  obtain ⟨hperm, hpw⟩ := hsort
  have hdistinct : p.nodes.Pairwise (fun a b => a.data.title ≠ b.data.title) :=
    hasc.imp (fun h => ne_of_lt h)
  have hdistinct2 : sorted.Pairwise (fun a b => a.data.title ≠ b.data.title) :=
    hperm.symm.pairwise hdistinct (fun h => Ne.symm h)
  have hstrict : sorted.Pairwise titleLess := by
    refine (hpw.and hdistinct2).imp ?_
    intro a b h
    exact lt_of_le_of_ne (not_lt.mp h.1) h.2
  haveI : IsAntisymm Node titleLess := ⟨fun a b h1 h2 => absurd h2 (lt_asymm h1)⟩
  have heq : sorted = p.nodes := List.eq_of_perm_of_sorted hperm hstrict hasc
  subst heq
  cases hn : p.nodes with
  | nil => exact absurd hn hne
  | cons n rest =>
    exact ⟨{ p with nodes := n :: rest, current := some n.addr }, by
      simp [sortByTitle, relinkNodes, hn], rfl⟩

theorem demoABC_ascending :
    List.Pairwise titleLess [(⟨2, songA⟩ : Node), ⟨1, songB⟩, ⟨3, songC⟩] := by
  show List.Pairwise (fun a b : Node => a.data.title < b.data.title) _
  simp only [songA, songB, songC, String.lt_iff_toList_lt]
  decide

/-- Instance of C11 (amended): the playlist `A, B, C` sorted again. -/
theorem sortByTitle_idempotent_strict_witness :
    ∃ q, sortByTitle { demoBAC with nodes := [⟨2, songA⟩, ⟨1, songB⟩, ⟨3, songC⟩] }
        [⟨2, songA⟩, ⟨1, songB⟩, ⟨3, songC⟩] = some q ∧
      q.nodes = [⟨2, songA⟩, ⟨1, songB⟩, ⟨3, songC⟩] :=
  sortByTitle_idempotent_strict
    { demoBAC with nodes := [⟨2, songA⟩, ⟨1, songB⟩, ⟨3, songC⟩] }
    [⟨2, songA⟩, ⟨1, songB⟩, ⟨3, songC⟩] (by decide) demoABC_ascending
    ⟨List.Perm.refl _, demoABC_ascending.imp (fun h => lt_asymm h)⟩

/-! ## C12: the sequence after `removeSong` -/

theorem findByTitle_none (l : List Node) (t : String)
    (h : ∀ m ∈ l, m.data.title ≠ t) : findByTitle l t = none := by
  induction l with
  | nil => rfl
  | cons m l ih =>
    have hm : m.data.title ≠ t := h m (List.mem_cons_self _ _)
    simp [findByTitle, hm, ih (fun k hk => h k (List.mem_cons_of_mem _ hk))]

theorem findByTitle_split (l : List Node) (t : String) (n : Node)
    (h : findByTitle l t = some n) :
    ∃ pre post, l = pre ++ n :: post ∧ (∀ m ∈ pre, m.data.title ≠ t) ∧ n.data.title = t := by
  induction l with
  | nil => simp [findByTitle] at h
  | cons m l ih =>
    by_cases hm : m.data.title = t
    · simp [findByTitle, hm] at h
      subst h
      exact ⟨[], l, rfl, by simp, hm⟩
    · simp [findByTitle, hm] at h
      obtain ⟨pre, post, h1, h2, h3⟩ := ih h
      refine ⟨m :: pre, post, by simp [h1], ?_, h3⟩
      intro k hk
      rcases List.mem_cons.mp hk with e | e
      · subst e; exact hm
      · exact h2 k e

theorem eraseP_title_split (pre post : List Node) (n : Node) (t : String)
    (hpre : ∀ m ∈ pre, m.data.title ≠ t) (hn : n.data.title = t) :
    (pre ++ n :: post).eraseP (fun k => decide (k.data.title = t)) = pre ++ post := by
  induction pre with
  | nil => simp [List.eraseP_cons, hn]
  | cons m pre ih =>
    have hm : m.data.title ≠ t := hpre m (List.mem_cons_self _ _)
    have := ih (fun k hk => hpre k (List.mem_cons_of_mem _ hk))
    simp [List.eraseP_cons, hm, this]

theorem eraseP_title_none (l : List Node) (t : String)
    (h : ∀ m ∈ l, m.data.title ≠ t) :
    l.eraseP (fun k => decide (k.data.title = t)) = l := by
  induction l with
  | nil => rfl
  | cons m l ih =>
    have hm : m.data.title ≠ t := h m (List.mem_cons_self _ _)
    simp [List.eraseP_cons, hm, ih (fun k hk => h k (List.mem_cons_of_mem _ hk))]

/-- C12. In a playlist whose nodes have distinct addresses, the chain after
`removeSong(title)` is the chain before with the first node (in traversal
order) carrying `title` deleted and all other nodes kept in their order; and if
no node carries `title`, the whole state is unchanged. -/
theorem removeSong_sequence (p : Playlist) (title : String)
    (hnd : (getNodeVector p).Nodup) :
    (removeSong p title).nodes =
      p.nodes.eraseP (fun n => decide (n.data.title = title)) ∧
    (∀ pre n post, p.nodes = pre ++ n :: post → (∀ m ∈ pre, m.data.title ≠ title) →
      n.data.title = title → (removeSong p title).nodes = pre ++ post) ∧
    ((∀ m ∈ p.nodes, m.data.title ≠ title) → removeSong p title = p) := by
  have hsplit : ∀ pre n post, p.nodes = pre ++ n :: post →
      (∀ m ∈ pre, m.data.title ≠ title) → n.data.title = title →
      (removeSong p title).nodes = pre ++ post := by
    intro pre n post hnodes hpre hn
    have hfresh : ∀ m ∈ pre, m.addr ≠ n.addr := by
      apply fresh_of_nodup pre post n
      simpa [getNodeVector, hnodes] using hnd
    have hfind : findByTitle p.nodes title = some n := by
      rw [hnodes]; exact findByTitle_append pre post n title hpre hn
    simp only [removeSong, hfind]
    rw [hnodes]; exact unlink_append pre post n hfresh
  have hnone : (∀ m ∈ p.nodes, m.data.title ≠ title) → removeSong p title = p := by
    intro h
    simp [removeSong, findByTitle_none p.nodes title h]
  refine ⟨?_, hsplit, hnone⟩
  cases hfind : findByTitle p.nodes title with
  | none =>
    simp only [removeSong, hfind]
    have hall : ∀ m ∈ p.nodes, m.data.title ≠ title := by
      intro m hm heq
      obtain ⟨pre, post, hdec⟩ := List.append_of_mem hm
      have : ∃ k, findByTitle p.nodes title = some k := by
        rw [hdec]
        clear hdec hm hfind hsplit hnone hnd
        induction pre with
        | nil => exact ⟨m, by simp [findByTitle, heq]⟩
        | cons x pre ih =>
          by_cases hx : x.data.title = title
          · exact ⟨x, by simp [findByTitle, hx]⟩
          · obtain ⟨k, hk⟩ := ih
            exact ⟨k, by simp [findByTitle, hx, hk]⟩
      obtain ⟨k, hk⟩ := this
      rw [hfind] at hk; cases hk
    exact (eraseP_title_none p.nodes title hall).symm
  | some n =>
    obtain ⟨pre, post, h1, h2, h3⟩ := findByTitle_split p.nodes title n hfind
    rw [hsplit pre n post h1 h2 h3, h1]
    exact (eraseP_title_split pre post n title h2 h3).symm

/-- Instance of C12: removing `B` from `demo3` leaves `A, C`. -/
theorem removeSong_sequence_witness :
    (removeSong demo3 "B").nodes =
      demo3.nodes.eraseP (fun n => decide (n.data.title = "B")) ∧
    (∀ pre n post, demo3.nodes = pre ++ n :: post → (∀ m ∈ pre, m.data.title ≠ "B") →
      n.data.title = "B" → (removeSong demo3 "B").nodes = pre ++ post) ∧
    ((∀ m ∈ demo3.nodes, m.data.title ≠ "B") → removeSong demo3 "B" = demo3) :=
  removeSong_sequence demo3 "B" (by decide)

/-! ## C13: the total duration after a sequence of `addSong` calls -/

theorem addSongs_data (songs : List Song) (p : Playlist) :
    (songs.foldl addSong p).nodes.map Node.data = p.nodes.map Node.data ++ songs := by
  induction songs generalizing p with
  | nil => simp
  | cons s songs ih =>
    rw [List.foldl_cons, ih (addSong p s)]
    simp [addSong]

theorem sumDurations_fits (l : List Node) (total : Int)
    (hfit : ∀ k, k ≤ l.length →
      intMin ≤ total + ((l.take k).map (fun n => n.data.duration)).sum ∧
      total + ((l.take k).map (fun n => n.data.duration)).sum ≤ intMax) :
    sumDurations total l = some (total + (l.map (fun n => n.data.duration)).sum) := by
  induction l generalizing total with
  | nil => simp [sumDurations]
  | cons n rest ih =>
    have h1 := hfit 1 (by simp)
    simp only [List.take_succ_cons, List.take_zero, List.map_cons, List.map_nil,
      List.sum_cons, List.sum_nil, add_zero] at h1
    have hadd : addInt total n.data.duration = some (total + n.data.duration) := by
      simp [addInt, h1.1, h1.2]
    simp only [sumDurations, hadd, List.map_cons, List.sum_cons]
    rw [ih (total + n.data.duration)]
    · rw [add_assoc]
    · intro k hk
      have := hfit (k + 1) (by simp; omega)
      simp only [List.take_succ_cons, List.map_cons, List.sum_cons] at this
      rw [add_assoc]
      exact this

/-- C13 (as stated, refuted). After `addSong` of an entry lasting 2147483647 s
and of `A` (180 s) on a fresh playlist, the addition `total += 180` in
`getTotalDuration()` overflows `int`: the call has no defined result, and in
particular does not return the sum 2147483827 of the added durations. -/
theorem getTotalDuration_overflow :
    getTotalDuration (addSong (addSong (Playlist.init "My Playlist") songMax) songA) = none ∧
    getTotalDuration (addSong (addSong (Playlist.init "My Playlist") songMax) songA) ≠
      some (songMax.duration + songA.duration) := by
  constructor
  · decide
  · decide

/-- C13 (amended). For every finite sequence of `addSong` calls on a freshly
constructed playlist such that every running total of the added durations lies
in the range of `int`, `getTotalDuration()` returns the sum of the durations of
the added entries; and it returns 0 for the empty playlist. -/
theorem getTotalDuration_sum (name : String) (songs : List Song)
    (hfit : ∀ k, k ≤ songs.length →
      intMin ≤ ((songs.take k).map Song.duration).sum ∧
      ((songs.take k).map Song.duration).sum ≤ intMax) :
    getTotalDuration (songs.foldl addSong (Playlist.init name)) =
      some (songs.map Song.duration).sum ∧
    getTotalDuration (Playlist.init name) = some 0 := by
  refine ⟨?_, rfl⟩
  have hdata := addSongs_data songs (Playlist.init name)
  simp only [Playlist.init, List.map_nil, List.nil_append] at hdata
  have hmap : ∀ l : List Node, l.map (fun n => n.data.duration) =
      (l.map Node.data).map Song.duration := by
    intro l; simp [List.map_map, Function.comp_def]
  have hlen : (songs.foldl addSong (Playlist.init name)).nodes.length = songs.length := by
    have := congrArg List.length hdata
    simpa using this
  unfold getTotalDuration
  rw [sumDurations_fits]
  · rw [hmap]
    simp only [Playlist.init] at hdata ⊢
    rw [hdata, zero_add]
  · intro k hk
    rw [hlen] at hk
    rw [hmap, List.map_take, zero_add]
    simp only [Playlist.init] at hdata ⊢
    rw [hdata]
    exact hfit k hk

theorem demo_durations_fit : ∀ k, k ≤ [songA, songB, songC].length →
    intMin ≤ (([songA, songB, songC].take k).map Song.duration).sum ∧
    (([songA, songB, songC].take k).map Song.duration).sum ≤ intMax := by
  intro k hk
  have : k = 0 ∨ k = 1 ∨ k = 2 ∨ k = 3 := by simp at hk; omega
  rcases this with h | h | h | h <;> subst h <;> decide

/-- Instance of C13 (amended): `A`, `B`, `C` added to a fresh playlist total
180 + 200 + 90 = 470 seconds. -/
theorem getTotalDuration_sum_witness :
    (getTotalDuration ([songA, songB, songC].foldl addSong (Playlist.init "My Playlist")) =
      some ([songA, songB, songC].map Song.duration).sum ∧
     getTotalDuration (Playlist.init "My Playlist") = some 0) ∧
    ([songA, songB, songC].map Song.duration).sum = 470 :=
  ⟨getTotalDuration_sum "My Playlist" [songA, songB, songC] demo_durations_fit, by decide⟩

/-! ## C14: entering shuffle mode -/

/-- C14. On a non-empty playlist whose nodes have distinct addresses, for every
permutation `std::shuffle` may draw, `toggleShuffle(true)` completes; afterwards
the shuffle vector holds every node of the chain exactly once and nothing else,
the shuffle cursor is 0, `current` is the first element of the vector, shuffle
mode is on and the chain is unchanged. -/
theorem toggleShuffle_on_spec (p : Playlist) (shuffled : List Nat)
    (hne : p.nodes ≠ [])
    (hnd : (getNodeVector p).Nodup)
    (hperm : StdShufflePost (getNodeVector p) shuffled) :
    ∃ q, toggleShuffle p true shuffled = some q ∧
      q.shuffledOrder = shuffled ∧
      q.shuffledOrder.Nodup ∧
      (∀ a, a ∈ q.shuffledOrder ↔ ∃ n ∈ q.nodes, n.addr = a) ∧
      q.shuffledOrder.length = q.nodes.length ∧
      q.shuffleIndex = 0 ∧
      q.current = q.shuffledOrder[0]? ∧ q.current ≠ none ∧
      q.isShuffled = true ∧
      q.nodes = p.nodes := by
  have hperm2 : shuffled.Perm (getNodeVector p) := hperm
  cases hsh : shuffled with
  | nil =>
    rw [hsh] at hperm2
    have := hperm2.symm.eq_nil
    simp [getNodeVector] at this
    exact absurd this hne
  | cons a rest =>
    rw [hsh] at hperm2
    refine ⟨{ p with isShuffled := true, shuffledOrder := a :: rest, shuffleIndex := 0,
                     current := some a }, by simp [toggleShuffle], rfl,
      hperm2.nodup_iff.mpr hnd, ?_, ?_, rfl, by simp, by simp, rfl, rfl⟩
    · intro b
      have := hperm2.mem_iff (a := b)
      simpa [getNodeVector] using this
    · have := hperm2.length_eq
      simpa [getNodeVector] using this

/-- Instance of C14 on `demo3` with the permutation drawn as `C, A, B`. -/
theorem toggleShuffle_on_spec_witness :
    ∃ q, toggleShuffle demo3 true [3, 1, 2] = some q ∧
      q.shuffledOrder = [3, 1, 2] ∧
      q.shuffledOrder.Nodup ∧
      (∀ a, a ∈ q.shuffledOrder ↔ ∃ n ∈ q.nodes, n.addr = a) ∧
      q.shuffledOrder.length = q.nodes.length ∧
      q.shuffleIndex = 0 ∧
      q.current = q.shuffledOrder[0]? ∧ q.current ≠ none ∧
      q.isShuffled = true ∧
      q.nodes = demo3.nodes :=
  toggleShuffle_on_spec demo3 [3, 1, 2] (by decide) (by decide)
    (show List.Perm [3, 1, 2] (getNodeVector demo3) by decide)

/-! ## C15: `prev()` in linear mode -/

/-- C15. On a playlist with shuffle disabled whose nodes have distinct
addresses and whose cursor is on the node `n`, `prev()` completes and mirrors
`next()`: if `n` has a predecessor the cursor moves to it; otherwise, with
repeat enabled, the cursor moves to the tail; otherwise the cursor stays. In
all three cases the entry under the resulting cursor is played: the state
becomes `Playing` and the entry is recorded by `addToHistory`. -/
theorem prev_linear (p : Playlist) (pre post : List Node) (n : Node)
    (hnodes : p.nodes = pre ++ n :: post)
    (hnd : (getNodeVector p).Nodup)
    (hshuf : p.isShuffled = false)
    (hcur : p.current = some n.addr) :
    (∀ front m, pre = front ++ [m] →
      prev p = some { p with current := some m.addr, state := PlaybackState.Playing,
                             history := addToHistory p.history m.data }) ∧
    (pre = [] → p.repeatFlag = true → ∀ front t, p.nodes = front ++ [t] →
      prev p = some { p with current := some t.addr, state := PlaybackState.Playing,
                             history := addToHistory p.history t.data }) ∧
    (pre = [] → p.repeatFlag = false →
      prev p = some { p with state := PlaybackState.Playing,
                             history := addToHistory p.history n.data }) := by
  have hnd2 : ((pre ++ n :: post).map Node.addr).Nodup := by
    simpa [getNodeVector, hnodes] using hnd
  have hfresh : ∀ m ∈ pre, m.addr ≠ n.addr := fresh_of_nodup pre post n hnd2
  have hprev : prevOf p.nodes n.addr = pre.getLast?.map Node.addr := by
    rw [hnodes]; exact prevOf_append pre post n hfresh
  have hderef : deref p.nodes n.addr = some n := by
    rw [hnodes]; exact deref_append pre post n hfresh
  refine ⟨?_, ?_, ?_⟩
  · intro front m hpre
    have hsplit : p.nodes = front ++ m :: (n :: post) := by
      rw [hnodes, hpre]; simp
    have hfm : ∀ k ∈ front, k.addr ≠ m.addr := by
      apply fresh_of_nodup front (n :: post) m
      simpa [getNodeVector, hsplit] using hnd
    have hdm : deref p.nodes m.addr = some m := by
      rw [hsplit]; exact deref_append front (n :: post) m hfm
    have hp : prevOf p.nodes n.addr = some m.addr := by
      rw [hprev, hpre]; simp
    simp [prev, hcur, hshuf, hp, play, hdm]
  · intro hpre hrep front t hlast
    have hp : prevOf p.nodes n.addr = none := by
      rw [hprev, hpre]; rfl
    have hft : ∀ k ∈ front, k.addr ≠ t.addr := by
      apply fresh_of_nodup front [] t
      simpa [getNodeVector, hlast] using hnd
    have hdt : deref p.nodes t.addr = some t := by
      rw [hlast]; exact deref_append front [] t hft
    have htail : tail p = some t.addr := by simp [tail, hlast]
    simp [prev, hcur, hshuf, hp, hrep, htail, play, hdt]
  · intro hpre hrep
    have hp : prevOf p.nodes n.addr = none := by
      rw [hprev, hpre]; rfl
    simp [prev, hcur, hshuf, hp, hrep, play, hderef]

/-- Instance of C15: on `demo3` (cursor on `B`) `prev()` moves to `A` and plays it. -/
theorem prev_linear_witness :
    prev demo3 = some { demo3 with current := some 1, state := PlaybackState.Playing,
                                   history := addToHistory [] songA } :=
  (prev_linear demo3 [⟨1, songA⟩] [⟨3, songC⟩] ⟨2, songB⟩ rfl (by decide) rfl rfl).1
    [] ⟨1, songA⟩ rfl

/-! ## C16: removing the only entry -/

/-- C16. On a playlist holding exactly one node `n`, with the cursor on it (or
null), `removeSong` with the title of `n` leaves the chain empty and the cursor
null; `play()`, `next()` and `prev()` called afterwards complete and return the
state unchanged (playback state, history and cursor included). -/
theorem removeSong_sole_entry (p : Playlist) (n : Node)
    (hnodes : p.nodes = [n])
    (hcur : ∀ c, p.current = some c → c = n.addr) :
    (removeSong p n.data.title).nodes = [] ∧
    (removeSong p n.data.title).current = none ∧
    play (removeSong p n.data.title) = some (removeSong p n.data.title) ∧
    next (removeSong p n.data.title) = some (removeSong p n.data.title) ∧
    prev (removeSong p n.data.title) = some (removeSong p n.data.title) := by
  have hfind : findByTitle p.nodes n.data.title = some n := by
    simp [hnodes, findByTitle]
  have hn : (removeSong p n.data.title).nodes = [] := by
    simp only [removeSong, hfind]
    simp [hnodes, unlink]
  have hc : (removeSong p n.data.title).current = none := by
    cases hcc : p.current with
    | none => simp [removeSong, hfind, hcc]
    | some c =>
      have := hcur c hcc
      subst this
      simp only [removeSong, hfind, hcc]
      simp [hnodes, nextOf, prevOf]
  refine ⟨hn, hc, ?_, ?_, ?_⟩
  · simp [play, hc]
  · simp [next, hc]
  · simp [prev, hc]

/-- Instance of C16 on a playlist holding only `A`. -/
theorem removeSong_sole_entry_witness :
    (removeSong (addSong (Playlist.init "My Playlist") songA) "A").nodes = [] ∧
    (removeSong (addSong (Playlist.init "My Playlist") songA) "A").current = none ∧
    play (removeSong (addSong (Playlist.init "My Playlist") songA) "A") =
      some (removeSong (addSong (Playlist.init "My Playlist") songA) "A") ∧
    next (removeSong (addSong (Playlist.init "My Playlist") songA) "A") =
      some (removeSong (addSong (Playlist.init "My Playlist") songA) "A") ∧
    prev (removeSong (addSong (Playlist.init "My Playlist") songA) "A") =
      some (removeSong (addSong (Playlist.init "My Playlist") songA) "A") :=
  removeSong_sole_entry (addSong (Playlist.init "My Playlist") songA) ⟨1, songA⟩ rfl
    (by decide)

/-! ## C17: `modifySong` -/

theorem modifyFirst_split (pre post : List Node) (n : Node) (t : String) (s : Song)
    (hpre : ∀ m ∈ pre, m.data.title ≠ t) (hn : n.data.title = t) :
    modifyFirst (pre ++ n :: post) t s = pre ++ { n with data := s } :: post := by
  induction pre with
  | nil => simp [modifyFirst, hn]
  | cons m pre ih =>
    have hm : m.data.title ≠ t := hpre m (List.mem_cons_self _ _)
    simp [modifyFirst, hm, ih (fun k hk => hpre k (List.mem_cons_of_mem _ hk))]

theorem modifyFirst_none (l : List Node) (t : String) (s : Song)
    (h : ∀ m ∈ l, m.data.title ≠ t) : modifyFirst l t s = l := by
  induction l with
  | nil => rfl
  | cons m l ih =>
    have hm : m.data.title ≠ t := h m (List.mem_cons_self _ _)
    simp [modifyFirst, hm, ih (fun k hk => h k (List.mem_cons_of_mem _ hk))]

/-- C17. `modifySong(title, newSong)` overwrites the record of the first node
(in traversal order) carrying `title` with `newSong`, in place: the node keeps
its address and position, the chain keeps its length, and every other node,
the cursor, the history, the shuffle members and the flags are unchanged. If no
node carries `title` the playlist is unchanged. -/
theorem modifySong_replaces_first (p : Playlist) (title : String) (newSong : Song) :
    (∀ pre n post, p.nodes = pre ++ n :: post → (∀ m ∈ pre, m.data.title ≠ title) →
      n.data.title = title →
      modifySong p title newSong =
        { p with nodes := pre ++ { addr := n.addr, data := newSong } :: post } ∧
      (modifySong p title newSong).nodes.length = p.nodes.length) ∧
    ((∀ m ∈ p.nodes, m.data.title ≠ title) → modifySong p title newSong = p) := by
  constructor
  · intro pre n post hnodes hpre hn
    have h := modifyFirst_split pre post n title newSong hpre hn
    constructor
    · simp [modifySong, hnodes, h]
    · simp [modifySong, hnodes, h]
  · intro h
    simp [modifySong, modifyFirst_none p.nodes title newSong h]

/-- Instance of C17: overwriting `B` in `demo3` by `C`. -/
theorem modifySong_replaces_first_witness :
    modifySong demo3 "B" songC = { demo3 with nodes := [⟨1, songA⟩, ⟨2, songC⟩, ⟨3, songC⟩] } ∧
    (modifySong demo3 "B" songC).nodes.length = demo3.nodes.length :=
  (modifySong_replaces_first demo3 "B" songC).1 [⟨1, songA⟩] ⟨2, songB⟩ [⟨3, songC⟩] rfl
    (by decide) rfl

/-! ## C18: `toggleFavorite` -/

theorem flipFirst_split (pre post : List Node) (n : Node) (t : String)
    (hpre : ∀ m ∈ pre, m.data.title ≠ t) (hn : n.data.title = t) :
    flipFirst (pre ++ n :: post) t =
      pre ++ { n with data := { n.data with favorite := !n.data.favorite } } :: post := by
  induction pre with
  | nil => simp [flipFirst, hn]
  | cons m pre ih =>
    have hm : m.data.title ≠ t := hpre m (List.mem_cons_self _ _)
    simp [flipFirst, hm, ih (fun k hk => hpre k (List.mem_cons_of_mem _ hk))]

theorem flipFirst_none (l : List Node) (t : String)
    (h : ∀ m ∈ l, m.data.title ≠ t) : flipFirst l t = l := by
  induction l with
  | nil => rfl
  | cons m l ih =>
    have hm : m.data.title ≠ t := h m (List.mem_cons_self _ _)
    simp [flipFirst, hm, ih (fun k hk => h k (List.mem_cons_of_mem _ hk))]

theorem flipFirst_twice (l : List Node) (t : String) :
    flipFirst (flipFirst l t) t = l := by
  induction l with
  | nil => rfl
  | cons m l ih =>
    by_cases hm : m.data.title = t
    · obtain ⟨a, d⟩ := m
      obtain ⟨t1, t2, t3, t4, t5, t6⟩ := d
      simp only at hm
      simp [flipFirst, hm]
    · simp [flipFirst, hm, ih]

/-- C18. `toggleFavorite(title)` negates the `favorite` flag of the first node
(in traversal order) carrying `title` and changes nothing else: the other
fields of that node, every other node (also one with the same title), the
order, the cursor and all other members stay as they were. If no node carries
`title` the playlist is unchanged. Calling it twice with the same title gives
back the original playlist. -/
theorem toggleFavorite_flips_first (p : Playlist) (title : String) :
    (∀ pre n post, p.nodes = pre ++ n :: post → (∀ m ∈ pre, m.data.title ≠ title) →
      n.data.title = title →
      toggleFavorite p title =
        { p with nodes :=
            pre ++ { n with data := { n.data with favorite := !n.data.favorite } } :: post }) ∧
    ((∀ m ∈ p.nodes, m.data.title ≠ title) → toggleFavorite p title = p) ∧
    toggleFavorite (toggleFavorite p title) title = p := by
  refine ⟨?_, ?_, ?_⟩
  · intro pre n post hnodes hpre hn
    simp [toggleFavorite, hnodes, flipFirst_split pre post n title hpre hn]
  · intro h
    simp [toggleFavorite, flipFirst_none p.nodes title h]
  · simp [toggleFavorite, flipFirst_twice]

/-- Instance of C18: marking `B` of `demo3` as favorite. -/
theorem toggleFavorite_flips_first_witness :
    toggleFavorite demo3 "B" =
      { demo3 with nodes :=
          [⟨1, songA⟩, ⟨2, { songB with favorite := true }⟩, ⟨3, songC⟩] } :=
  (toggleFavorite_flips_first demo3 "B").1 [⟨1, songA⟩] ⟨2, songB⟩ [⟨3, songC⟩] rfl
    (by decide) rfl

/-! ## C19 and C20: removal while shuffle is enabled -/

/-- C19 (failing input). In the reachable state `shuffledEnd` shuffle is
enabled, the shuffle cursor 1 is a valid index into the permutation `B, A` and
`current` is the element `A` at that index. `removeSong("A")` leaves the
collection non-empty (`B`), and erases `A` from the chain and from the
permutation, but it leaves the shuffle cursor at 1, which is no index of the
remaining permutation `B`, so `current` (now `B`) is not the element at the
shuffle cursor. -/
theorem removeSong_shuffle_cursor_stale :
    (shuffledEnd.isShuffled = true ∧
     shuffledEnd.shuffleIndex < shuffledEnd.shuffledOrder.length ∧
     shuffledEnd.current = shuffledEnd.shuffledOrder[shuffledEnd.shuffleIndex]?) ∧
    (removeSong shuffledEnd "A").nodes = [⟨2, songB⟩] ∧
    (removeSong shuffledEnd "A").shuffledOrder = [2] ∧
    (removeSong shuffledEnd "A").shuffleIndex = 1 ∧
    (removeSong shuffledEnd "A").current = some 2 ∧
    ¬ ((removeSong shuffledEnd "A").shuffleIndex <
        (removeSong shuffledEnd "A").shuffledOrder.length) ∧
    (removeSong shuffledEnd "A").current ≠
      (removeSong shuffledEnd "A").shuffledOrder[(removeSong shuffledEnd "A").shuffleIndex]? := by
  decide

theorem staleCursor_run : run (Playlist.init "My Playlist") staleCalls = some staleCursor := by
  decide

theorem staleCursor_reachable : Reachable staleCursor := by
  have h0 := Reachable.init "My Playlist"
  have h1 := Reachable.step (Op.addSong songA) h0 trivial rfl
  have h2 := Reachable.step (Op.addSong songB) h1 trivial rfl
  have h3 := Reachable.step (Op.addSong songC) h2 trivial rfl
  have h4 := Reachable.step (Op.toggleShuffle true [1, 2, 3]) h3
    (show List.Perm [1, 2, 3] _ by decide) rfl
  have h5 := Reachable.step Op.next h4 trivial rfl
  have h6 := Reachable.step Op.next h5 trivial rfl
  have h7 := Reachable.step (Op.removeSong "A") h6 trivial rfl
  exact Reachable.step (Op.removeSong "B") h7 trivial (by decide)

/-- C20 (failing input). After `staleCalls` on a fresh playlist the collection
holds one entry, shuffle is enabled, the shuffle vector has length 1 and the
shuffle cursor is 2. `prev()` then passes the test `shuffleIndex > 0` and reads
`shuffledOrder[1]`, outside the bounds of the vector: the call has no defined
behaviour. -/
theorem prev_reads_out_of_bounds :
    Reachable staleCursor ∧
    run (Playlist.init "My Playlist") staleCalls = some staleCursor ∧
    staleCursor.nodes ≠ [] ∧ staleCursor.isShuffled = true ∧
    staleCursor.shuffleIndex > 0 ∧
    staleCursor.shuffledOrder.length ≤ staleCursor.shuffleIndex - 1 ∧
    prev staleCursor = none :=
  ⟨staleCursor_reachable, staleCursor_run, by decide, rfl, by decide, by decide, by rfl⟩

/-- The read of `next()` is guarded by `shuffleIndex + 1 < shuffledOrder.size()`
and is therefore always within bounds: whenever `next()` takes the shuffle
branch, the element read exists. -/
theorem next_read_in_bounds (p : Playlist)
    (h : p.isShuffled = true ∧ p.shuffleIndex + 1 < p.shuffledOrder.length) :
    ∃ a, p.shuffledOrder[p.shuffleIndex + 1]? = some a :=
  ⟨p.shuffledOrder[p.shuffleIndex + 1], List.getElem?_eq_getElem h.2⟩

end PlaylistManager
